import Mathlib

/-!
Occam: assembler and virtual machine of a transputer-style instruction set

A shallow embedding of `src/assembler/include/asm.h`, `src/assembler/asm.cpp`,
`src/virtual_machine/include/Memory.h`, `src/virtual_machine/include/Transputer.h`
and `src/virtual_machine/Transputer.cpp`.

Conventions of the embedding:

* `u8`, `u32` and `u64` values are natural numbers; every operation that can leave
  the range is followed by an explicit `% 256`, `% 4294967296` or
  `% 18446744073709551616`.
* a `std::string` is a `List Char`, a `std::vector<u8>` is a `List Nat`.
* a C++ exception is an error value; a read or write the C++ standard leaves
  undefined (outside a vector, division by zero, an oversized shift) is the error
  `undefinedAccess`.
* a pointer into the label map is the label text; a pointer into the instruction
  vector is an address counted in units of one `Instruction`, and the vector has a
  buffer at a base address that changes when it reallocates.
-/

namespace Occam

/-! ## Instruction codec (asm.h) -/

namespace Assembler

/-- The constant `MAX_LINE_LENGTH`. -/
def MAX_LINE_LENGTH : Nat := 255

/-- The table `instrMap`: the sixteen mnemonics and their codes, in source order. -/
def instrMap : List (List Char × Nat) :=
  [ ("pfix".toList,  0x0), ("nfix".toList,  0x1), ("opr".toList,   0x2), ("ldl".toList,   0x3),
    ("stl".toList,   0x4), ("ldlp".toList,  0x5), ("ldc".toList,   0x6), ("adc".toList,   0x7),
    ("eqc".toList,   0x8), ("j".toList,     0x9), ("cj".toList,    0xA), ("ldnl".toList,  0xB),
    ("stnl".toList,  0xC), ("ldnlp".toList, 0xD), ("call".toList,  0xE), ("ajw".toList,   0xF) ]

/-- The table `operMap`: the fourteen entries of the operate table, in source order
(the text `and` occurs twice, the text `add` does not occur). -/
def operMap : List (List Char × Nat) :=
  [ ("noop".toList, 0x0), ("rev".toList,  0x1), ("eqz".toList,  0x2), ("gt".toList,   0x3),
    ("and".toList,  0x4), ("or".toList,   0x5), ("xor".toList,  0x6), ("and".toList,  0x7),
    ("sub".toList,  0x8), ("mul".toList,  0x9), ("div".toList,  0xA), ("mod".toList,  0xB),
    ("shl".toList,  0xC), ("shr".toList,  0xD) ]

/-- Modelled from the spec: the template `Map` of `auxlib/Map.h` is not among the
sources. Its member `at` is the keyed lookup of §4.1 (`lookupOpcode`,
`lookupSubop`), which fails when the key is absent; the comments of `asm.h`
describe it as a linear search, so the first entry with the key is the one found. -/
def Map.at (m : List (List Char × Nat)) (key : List Char) : Option Nat :=
  (m.find? (fun e => decide (e.1 = key))).map (fun e => e.2)

/-- The constant `pfixCode = instrMap.at("pfix")`. -/
def pfixCode : Nat := 0x0
/-- The constant `nfixCode = instrMap.at("nfix")`. -/
def nfixCode : Nat := 0x1
/-- The constant `oprCode = instrMap.at("opr")`. -/
def oprCode : Nat := 0x2
/-- The constant `jCode = instrMap.at("j")`. -/
def jCode : Nat := 0x9
/-- The constant `cjCode = instrMap.at("cj")`. -/
def cjCode : Nat := 0xA
/-- The constant `noopCode = (oprCode << 4)`, a `u8`. -/
def noopCode : Nat := (oprCode <<< 4) % 256

/-- `Assembler::genPrefixSeq(instrCode, vImm, instrBuf)`, returning the buffer after
the call. `vImm` is a `u32`, so the test `vImm < 0` of the source is a comparison of
an unsigned value with zero; it is kept as written. `~vImm` is
`4294967295 - vImm`. The pushed byte is truncated to a `u8`. -/
def genPrefixSeq (instrCode vImm : Nat) (instrBuf : List Nat) : List Nat :=
  let buf : List Nat :=
    if _h16 : 16 ≤ vImm then genPrefixSeq pfixCode (vImm >>> 4) instrBuf
    else if _hneg : vImm < 0 then
      genPrefixSeq nfixCode ((4294967295 - vImm % 4294967296) >>> 4) instrBuf
    else instrBuf
  buf ++ [(instrCode ||| (vImm &&& 0xF)) % 256]
termination_by vImm
decreasing_by
  · simp only [Nat.shiftRight_eq_div_pow]; omega
  · omega

end Assembler

/-! ## Labels and instructions (asm.h) -/

/-- The struct `Label`: its text and its offset, a `u32`. -/
structure Label where
  text : List Char
  offset : Nat
  deriving DecidableEq, Repr

/-- The constructor `Label(_text)`: the offset starts at 0. -/
def Label.new (text : List Char) : Label := ⟨text, 0⟩

/-- The union `instrVal` of an instruction. The member that was written is the
constructor; a `Label*` is the text of the label it points to, which is its key in
`allLabels`. -/
inductive InstrVal where
  | opCode (c : Nat)
  | imm (v : Nat)
  | labelPtr (text : List Char)
  deriving DecidableEq, Repr

/-- The class `Instruction`: `instrCode` and `estSize` are `u8`. -/
structure Instruction where
  instrCode : Nat
  estSize : Nat
  instrVal : InstrVal
  deriving DecidableEq, Repr

/-- The variant `Line`: a `Label*` (the label text) or an `Instruction*`, the address
`&allInstr.back()` had when the line was scanned, in units of one `Instruction`.
The address points to an instruction only while the buffer it was taken from is
the buffer of the vector. -/
inductive Line where
  | label (text : List Char)
  | instr (ptr : Nat)
  deriving DecidableEq, Repr

/-- What a run of the assembler can fail with, one value per `throw` of the source:
the length check of `scanLabels`, the uncaught `std::out_of_range` of `getLabel` on
a label line, the missing space in `scanInstructions`, the `catch` block of the
`Instruction` constructor; and a read the C++ standard leaves undefined (a union
member that was not the one written, a pointer to nothing). -/
inductive AsmError where
  | lineTooLong
  | undefinedLabel
  | malformedInstruction
  | instructionAssemblyError
  | undefinedAccess
  deriving DecidableEq, Repr

/-- The class `Assembler`: the lines `std::getline` yields from `fileIn`, the bytes
written to `fileOut`, and the three containers. Of the `std::vector` `allInstr`
the state also holds the address of the first element of its buffer, `instrBase`,
and its capacity, `instrCap`: element `i` is at the address `instrBase + i`. -/
structure Assembler where
  fileIn : List (List Char)
  fileOut : List Nat
  allInstr : List Instruction
  allLabels : List Label
  allLines : List Line
  instrBase : Nat
  instrCap : Nat
  deriving DecidableEq, Repr

namespace Assembler

/-- The constructor `Assembler(_fileIn, _fileOut)`: nothing written, the containers
empty. -/
def new (fileIn : List (List Char)) : Assembler := ⟨fileIn, [], [], [], [], 0, 0⟩

/-- `allInstr.emplace_back(instrDesc, instrVal)` with the instruction built. At
`size() == capacity()` the vector reallocates: the elements move to a new buffer,
which lies at addresses past those of every earlier buffer, and the pointers into
the old buffer no longer point to an instruction. The new capacity is the
implementation's; it is the doubling of libstdc++ and libc++ (1 from 0). -/
def emplaceInstr (a : Assembler) (ins : Instruction) : Assembler :=
  if a.allInstr.length = a.instrCap then
    { a with allInstr := a.allInstr ++ [ins],
             instrBase := a.instrBase + a.instrCap,
             instrCap := max 1 (2 * a.instrCap) }
  else { a with allInstr := a.allInstr ++ [ins] }

/-- `&allInstr.back()`: the address of the last element. -/
def backPtr (a : Assembler) : Nat := a.instrBase + (a.allInstr.length - 1)

/-- `Assembler::getLabel(labelText)`: `allLabels.at(labelText)`, which throws when the
key is absent. -/
def getLabel (a : Assembler) (labelText : List Char) : Option Label :=
  a.allLabels.find? (fun l => decide (l.text = labelText))

/-- `allLabels.emplace(line, line)`: a `std::map` keeps an entry whose key is already
present and inserts `Label(line)` otherwise. -/
def emplaceLabel (a : Assembler) (line : List Char) : Assembler :=
  match a.getLabel line with
  | some _ => a
  | none => { a with allLabels := a.allLabels ++ [Label.new line] }

/-- The assignment `label->offset = byteOffset` through the pointer of a label line. -/
def setLabelOffset (a : Assembler) (text : List Char) (byteOffset : Nat) : Assembler :=
  { a with allLabels :=
      a.allLabels.map (fun l => if l.text = text then { l with offset := byteOffset } else l) }

end Assembler

/-- The characters `std::isspace` accepts in the C locale. -/
def isSpace (c : Char) : Bool :=
  c.toNat = 32 || (9 ≤ c.toNat && c.toNat ≤ 13)

/-- The value of a run of decimal digits. -/
def digitsValue (ds : List Char) : Nat :=
  ds.foldl (fun acc c => 10 * acc + (c.toNat - 48)) 0

/-- `std::stoi(str)`: leading white space is skipped, an optional sign is read, then
the longest run of decimal digits; it throws when there is no digit or when the
value does not fit an `int`. -/
def stoi (str : List Char) : Option Int :=
  let s := str.dropWhile isSpace
  let neg : Bool := s.head? = some '-'
  let s1 := if s.head? = some '-' ∨ s.head? = some '+' then s.tail else s
  let ds := s1.takeWhile Char.isDigit
  if ds = [] then none
  else
    let v : Int := if neg then -(digitsValue ds : Int) else (digitsValue ds : Int)
    if v < -2147483648 ∨ 2147483647 < v then none else some v

/-- The loop behind `__builtin_clz` on a non-zero 32-bit value: the zero bits above
the highest set bit, scanning from bit `k - 1` down. -/
def clzLoop : Nat → Nat → Nat
  | 0, _ => 0
  | k + 1, x => if x.testBit k then 0 else 1 + clzLoop k x

/-- `__builtin_clz(x)` for a `u32` argument, with result type `int`. The builtin's
result at 0 is undefined; `clz0` is the value it yields there. -/
def builtin_clz (clz0 : Int) (x : Nat) : Int :=
  if x % 4294967296 = 0 then clz0 else (clzLoop 32 (x % 4294967296) : Nat)

namespace Instruction

/-- `Instruction::isJump()`. -/
def isJump (ins : Instruction) : Bool :=
  ins.instrCode = Assembler.jCode || ins.instrCode = Assembler.cjCode

/-- `Instruction::isOperation()`. -/
def isOperation (ins : Instruction) : Bool :=
  ins.instrCode = Assembler.oprCode

/-- `Instruction::hasImmediate()`. -/
def hasImmediate (ins : Instruction) : Bool :=
  !ins.isJump && !ins.isOperation

/-- The constructor `Instruction(instrDesc, instrRest)`, run by the assembler `a`
that `assemblerPtr` points to. `none` is the `BException` of the `catch` block:
every lookup and `std::stoi` throw a `std::exception`. The `int` of `std::stoi` is
stored into the `u32` member, the value of `operMap` into the `u8` member. -/
def new (a : Assembler) (instrDesc instrRest : List Char) : Option Instruction :=
  match Assembler.Map.at Assembler.instrMap instrDesc with
  | none => none
  | some code =>
    let ins : Instruction := ⟨code % 256, 0, .imm 0⟩
    if ins.isJump then
      match a.getLabel instrRest with
      | none => none
      | some l => some { ins with instrVal := .labelPtr l.text }
    else if ins.hasImmediate then
      match stoi instrRest with
      | none => none
      | some v => some { ins with instrVal := .imm (v % 4294967296).toNat }
    else
      match Assembler.Map.at Assembler.operMap instrRest with
      | none => none
      | some c => some { ins with instrVal := .opCode (c % 256) }

/-- The local `deltaOffset = atOffset - labelOffset` of `assemble`, in `u32`. -/
def deltaOffset (atOffset labelOffset : Nat) : Nat :=
  (atOffset % 4294967296 + 4294967296 - labelOffset % 4294967296) % 4294967296

/-- The padding loop of `assemble`: `noopCode` is pushed while the size is below 8. -/
def padJump (assembledInstr : List Nat) : List Nat :=
  assembledInstr ++ List.replicate (8 - assembledInstr.length) Assembler.noopCode

/-- `Instruction::assemble(atOffset)`, reading label offsets from `labels`. `none`
when the union member read is not the one written or the label pointer points to
no label. -/
def assemble (ins : Instruction) (labels : List Label) (atOffset : Nat) : Option (List Nat) :=
  if ins.hasImmediate then
    match ins.instrVal with
    | .imm imm => some (Assembler.genPrefixSeq ins.instrCode imm [])
    | _ => none
  else if ins.isOperation then
    match ins.instrVal with
    | .opCode opCode => some (Assembler.genPrefixSeq ins.instrCode opCode [])
    | _ => none
  else
    match ins.instrVal with
    | .labelPtr text =>
      match labels.find? (fun l => decide (l.text = text)) with
      | none => none
      | some l =>
        some (padJump (Assembler.genPrefixSeq ins.instrCode (deltaOffset atOffset l.offset) []))
    | _ => none

/-- `Instruction::estimateSize()`, a `u8`. The division is the truncating division
of C++ on `int`. `none` when the union member read is not the one written. -/
def estimateSize (clz0 : Int) (ins : Instruction) : Option Nat :=
  if ins.isJump then some 8
  else if ins.isOperation then
    match ins.instrVal with
    | .opCode opCode => some (1 + (if opCode ≥ 16 then 1 else 0))
    | _ => none
  else
    match ins.instrVal with
    | .imm imm => some ((1 + Int.tdiv (32 - builtin_clz clz0 imm) 4) % 256).toNat
    | _ => none

end Instruction

namespace Assembler

/-- The body of the loop of `scanLabels` for one line read by `std::getline`; the
loop runs again while the line is not empty. At the end of the input the read
leaves the line empty. `line.back()` of an empty line is taken not to be a colon. -/
def scanLabelsLoop : List (List Char) → Assembler → Assembler × Option AsmError
  | [], a => (a, none)
  | line :: rest, a =>
    if line.length > MAX_LINE_LENGTH then (a, some .lineTooLong)
    else
      let a1 := if line.getLast? = some ':' then a.emplaceLabel line else a
      if line ≠ [] then scanLabelsLoop rest a1 else (a1, none)

/-- `Assembler::scanLabels()`; the rewind of `fileIn` is the fact that every pass
reads `fileIn` from its first line. -/
def scanLabels (a : Assembler) : Assembler × Option AsmError :=
  scanLabelsLoop a.fileIn a

/-- The body of the loop of `scanInstructions` for one line: a label line, or the
split at the first space and the construction of the instruction. -/
def scanLine (a : Assembler) (line : List Char) : Assembler × Option AsmError :=
  if line.getLast? = some ':' then
    match a.getLabel line with
    | none => (a, some .undefinedLabel)
    | some l => ({ a with allLines := a.allLines ++ [Line.label l.text] }, none)
  else
    match line.span (fun c => c ≠ ' ') with
    | (_, []) => (a, some .malformedInstruction)
    | (instrDesc, _ :: instrVal) =>
      match Instruction.new a instrDesc instrVal with
      | none => (a, some .instructionAssemblyError)
      | some ins =>
        ({ a.emplaceInstr ins with
            allLines := a.allLines ++ [Line.instr (a.emplaceInstr ins).backPtr] }, none)

/-- The loop of `scanInstructions`: the body for each line read, again while the
line is not empty; at the end of the input the read leaves the line empty. -/
def scanInstructionsLoop : List (List Char) → Assembler → Assembler × Option AsmError
  | [], a => a.scanLine []
  | line :: rest, a =>
    match a.scanLine line with
    | (a1, some e) => (a1, some e)
    | (a1, none) => if line ≠ [] then scanInstructionsLoop rest a1 else (a1, none)

/-- `Assembler::scanInstructions()`. -/
def scanInstructions (a : Assembler) : Assembler × Option AsmError :=
  scanInstructionsLoop a.fileIn a

/-- The loop of `calculateOffsets` over the remaining lines, from the running
`byteOffset`; it returns the final `byteOffset` as well. `byteOffset` is a `u32`,
`estSize` a `u8`. The `Instruction*` of an instruction line is dereferenced as it
was stored: an address below the buffer of `allInstr` (a pointer into a buffer the
vector has left) or past its last element points to no instruction, and reading
through it is undefined. -/
def calculateOffsetsLoop (clz0 : Int) :
    List Line → Nat → Assembler → (Assembler × Nat) × Option AsmError
  | [], byteOffset, a => ((a, byteOffset), none)
  | Line.label text :: rest, byteOffset, a =>
    calculateOffsetsLoop clz0 rest byteOffset (a.setLabelOffset text byteOffset)
  | Line.instr idx :: rest, byteOffset, a =>
    if a.instrBase ≤ idx then
      match a.allInstr.get? (idx - a.instrBase) with
      | none => ((a, byteOffset), some .undefinedAccess)
      | some ins =>
        match ins.estimateSize clz0 with
        | none => ((a, byteOffset), some .undefinedAccess)
        | some sz =>
          calculateOffsetsLoop clz0 rest ((byteOffset + sz) % 4294967296)
            { a with allInstr :=
                a.allInstr.set (idx - a.instrBase) { ins with estSize := sz } }
    else ((a, byteOffset), some .undefinedAccess)

/-- `Assembler::calculateOffsets()`. -/
def calculateOffsets (clz0 : Int) (a : Assembler) : Assembler × Option AsmError :=
  ((calculateOffsetsLoop clz0 a.allLines 0 a).1.1, (calculateOffsetsLoop clz0 a.allLines 0 a).2)

/-- The loop of `Assembler::assemble()` over the remaining instructions, from the
running `byteOffset`. -/
def assembleLoop : List Instruction → Nat → Assembler → Assembler × Option AsmError
  | [], _, a => (a, none)
  | ins :: rest, byteOffset, a =>
    match ins.assemble a.allLabels byteOffset with
    | none => (a, some .undefinedAccess)
    | some assembledInstr =>
      assembleLoop rest ((byteOffset + assembledInstr.length) % 4294967296)
        { a with fileOut := a.fileOut ++ assembledInstr }

/-- `Assembler::assemble()`. -/
def assemble (a : Assembler) : Assembler × Option AsmError :=
  assembleLoop a.allInstr 0 a

/-- `Assembler::run()`: the four passes in order; an exception ends the run. -/
def run (clz0 : Int) (a : Assembler) : Assembler × Option AsmError :=
  match a.scanLabels with
  | (a1, some e) => (a1, some e)
  | (a1, none) =>
    match a1.scanInstructions with
    | (a2, some e) => (a2, some e)
    | (a2, none) =>
      match a2.calculateOffsets clz0 with
      | (a3, some e) => (a3, some e)
      | (a3, none) => a3.assemble

end Assembler

/-! ## Memory (Memory.h) -/

/-- What a memory operation or a step of the machine can fail with: the two
exceptions of `checkByteAccess` / `checkWordAccess`, and an access or operation the
C++ standard leaves undefined. -/
inductive Fault where
  | outOfBounds
  | misaligned
  | undefinedAccess
  deriving DecidableEq, Repr

deriving instance DecidableEq for Except

/-- The classes `Memory`, `ReadableMemory` and `WriteableMemory`: the byte vector
`memData`. -/
structure Memory where
  memData : List Nat
  deriving DecidableEq, Repr

namespace Memory

/-- `Memory::getSize()`: the size of the vector as a `u32`. -/
def getSize (m : Memory) : Nat := m.memData.length % 4294967296

/-- `Memory::checkByteAccess(byteIdx)`. -/
def checkByteAccess (m : Memory) (byteIdx : Nat) : Except Fault Unit :=
  if byteIdx ≥ m.getSize then .error .outOfBounds else .ok ()

/-- `Memory::checkWordAccess(addr)`: `getSize() - 3` is computed in `u32`, so it is
`getSize() - 3` from size 3 on and wraps around to `getSize() + 2^32 - 3` below
(the value `(getSize() + 2^32 - 3) % 2^32`, see `checkWordAccess_bound`). -/
def checkWordAccess (m : Memory) (addr : Nat) : Except Fault Unit :=
  if addr ≥ (if 3 ≤ m.getSize then m.getSize - 3 else m.getSize + 4294967293)
  then .error .outOfBounds
  else if addr &&& 3 ≠ 0 then .error .misaligned
  else .ok ()

/-- Modelled from the spec: `getByte` is called by `readWord` and declared nowhere in
the sources. It is taken to be the unchecked read of one of the "constituent
bytes" of §4.3, `memData[byteIdx]`, undefined outside the vector. -/
def getByte (m : Memory) (byteIdx : Nat) : Except Fault Nat :=
  match m.memData.get? byteIdx with
  | some b => .ok b
  | none => .error .undefinedAccess

/-- `ReadableMemory::readByte(byteIdx)`. -/
def readByte (m : Memory) (byteIdx : Nat) : Except Fault Nat :=
  match m.checkByteAccess byteIdx with
  | .error e => .error e
  | .ok _ => m.getByte byteIdx

/-- One iteration of the loop of `readWord`: `word |= getByte(addr + i); word <<= 8;`
with `addr + i` and the shift in `u32`. -/
def readWordStep (m : Memory) (addr : Nat) (word i : Nat) : Except Fault Nat :=
  match m.getByte ((addr + i) % 4294967296) with
  | .error e => .error e
  | .ok b => .ok (((word ||| b) <<< 8) % 4294967296)

/-- `ReadableMemory::readWord(addr)`: the check, then the loop for `i = 0, 1, 2, 3`. -/
def readWord (m : Memory) (addr : Nat) : Except Fault Nat :=
  match m.checkWordAccess addr with
  | .error e => .error e
  | .ok _ => [0, 1, 2, 3].foldlM (m.readWordStep addr) 0

/-- The assignment `mem[idx] = byte` (the source writes `mem` for `memData`),
undefined outside the vector. -/
def store (m : Memory) (idx byte : Nat) : Except Fault Memory :=
  if idx < m.memData.length then .ok ⟨m.memData.set idx byte⟩ else .error .undefinedAccess

/-- `WriteableMemory::writeByte(byteIdx, byte)`. -/
def writeByte (m : Memory) (byteIdx byte : Nat) : Except Fault Memory :=
  match m.checkByteAccess byteIdx with
  | .error e => .error e
  | .ok _ => m.store byteIdx byte

/-- One iteration of the loop of `setWord`: `mem[addr + i] = word & 0xFF; word >>= 8;`
on the pair of the memory and the remaining word. -/
def setWordStep (addr : Nat) (st : Memory × Nat) (i : Nat) : Except Fault (Memory × Nat) :=
  match st.1.store ((addr + i) % 4294967296) (st.2 &&& 0xFF) with
  | .error e => .error e
  | .ok m => .ok (m, st.2 >>> 8)

/-- `WriteableMemory::setWord(addr, word)`: the check, then the loop for
`i = 0, 1, 2, 3`. -/
def setWord (m : Memory) (addr word : Nat) : Except Fault Memory :=
  match m.checkWordAccess addr with
  | .error e => .error e
  | .ok _ =>
    match [0, 1, 2, 3].foldlM (setWordStep addr) (m, word) with
    | .error e => .error e
    | .ok st => .ok st.1

/-- `WriteableMemory::clearMemory()`. -/
def clearMemory (m : Memory) : Memory := ⟨m.memData.map (fun _ => 0)⟩

end Memory

/-! ## Virtual machine (Transputer.h, Transputer.cpp) -/

/-- The class `Transputer`: the program buffer, the memory behind `memPtr`, the six
registers and the tick counter. -/
structure Transputer where
  instrBuf : List Nat
  mem : Memory
  I : Nat
  W : Nat
  O : Nat
  A : Nat
  B : Nat
  C : Nat
  tickCount : Nat
  deriving DecidableEq, Repr

namespace Transputer

/-- `Transputer::advanceInstr()`: `I += 1` in `u32`. -/
def advanceInstr (t : Transputer) : Transputer := { t with I := (t.I + 1) % 4294967296 }

/-- The value of a C++ comparison stored into a `u32` register. -/
def boolWord (b : Bool) : Nat := if b then 1 else 0

/-- `Transputer::doOp(opCode)`. Division and remainder by zero and shifts by 32 or
more are undefined in C++. -/
def doOp (t : Transputer) (opCode : Nat) : Except Fault Transputer :=
  match opCode with
  | 0x0 => .ok { t with A := t.B, B := t.A }
  | 0x1 => .ok { t with A := boolWord (t.A == 0) }
  | 0x2 =>
    let a := boolWord (decide (t.B > t.A))
    .ok { t with A := a, C := boolWord (decide (t.B > a)) }
  | 0x3 => .ok { t with A := t.A &&& t.B }
  | 0x4 => .ok { t with A := t.A ||| t.B }
  | 0x5 => .ok { t with A := t.A ^^^ t.B }
  | 0x6 => .ok { t with A := (t.A + t.B) % 4294967296 }
  | 0x7 => .ok { t with A := (t.A + 4294967296 - t.B % 4294967296) % 4294967296 }
  | 0x8 => .ok { t with A := (t.A * t.B) % 4294967296 }
  | 0x9 => if t.B = 0 then .error .undefinedAccess else .ok { t with A := t.A / t.B }
  | 0xA => if t.B = 0 then .error .undefinedAccess else .ok { t with A := t.A % t.B }
  | 0xB =>
    if t.B ≥ 32 then .error .undefinedAccess
    else .ok { t with A := (t.A <<< t.B) % 4294967296 }
  | 0xC => if t.B ≥ 32 then .error .undefinedAccess else .ok { t with A := t.A >>> t.B }
  | _ => .ok t

/-- The operand of an instruction byte, `oper = O | (instrCode & 0xF)`. -/
def operOf (o instrCode : Nat) : Nat := o ||| (instrCode &&& 0xF)

/-- `readWord(addr)` as called by `doInstr`: the read of the memory behind `memPtr`. -/
def readWord (t : Transputer) (addr : Nat) : Except Fault Nat := t.mem.readWord addr

/-- `writeWord(addr, word)` as called by `doInstr`: `setWord` on the memory behind
`memPtr`, the only word write `Memory.h` has. -/
def writeWord (t : Transputer) (addr word : Nat) : Except Fault Transputer :=
  match t.mem.setWord addr word with
  | .error e => .error e
  | .ok m => .ok { t with mem := m }

/-- `Transputer::doInstr(instrCode)`: `code = instrCode & 0xF0`, `oper = O |
(instrCode & 0xF)`, and the `switch (code)` with the case labels `0x0` to `0xF` as
the source writes them; a value with no case label leaves the state as it is.
Register arithmetic is in `u32`; `doOp` receives `oper` as a `u8`. -/
def doInstr (t : Transputer) (instrCode : Nat) : Except Fault Transputer :=
  let code := instrCode &&& 0xF0
  let oper := operOf t.O instrCode
  match code with
  | 0x0 => .ok (advanceInstr { t with O := (oper <<< 4) % 4294967296 })
  | 0x1 => .ok (advanceInstr { t with O := ((4294967295 - oper % 4294967296) <<< 4) % 4294967296 })
  | 0x2 => doOp (advanceInstr { t with O := 0 }) (oper % 256)
  | 0x3 =>
    let t1 := { t with C := t.B, B := t.A, O := 0 }
    match t1.readWord ((t.W + oper) % 4294967296) with
    | .error e => .error e
    | .ok w => .ok (advanceInstr { t1 with A := w })
  | 0x4 =>
    match t.writeWord ((t.W + oper) % 4294967296) t.A with
    | .error e => .error e
    | .ok t1 => .ok (advanceInstr { t1 with A := t.B, B := t.C, O := 0 })
  | 0x5 => .ok (advanceInstr { t with C := t.B, B := t.A, A := (t.W + oper * 4) % 4294967296 })
  | 0x6 => .ok (advanceInstr { t with O := 0, C := t.B, B := t.A, A := oper })
  | 0x7 => .ok (advanceInstr { t with A := (t.A + oper) % 4294967296, O := 0 })
  | 0x8 => .ok (advanceInstr { t with A := boolWord (t.A == oper), O := 0 })
  | 0x9 => .ok { t with O := 0, I := (t.I + (1 + oper)) % 4294967296 }
  | 0xA =>
    if t.A = 0 then .ok { t with O := 0, I := (t.I + (1 + oper)) % 4294967296 }
    else .ok (advanceInstr { t with O := 0, A := t.B, B := t.C })
  | 0xB =>
    if t.A &&& 4 ≠ 0 then .ok t
    else
      match t.readWord ((t.A + oper * 4) % 4294967296) with
      | .error e => .error e
      | .ok w => .ok (advanceInstr { t with A := w, O := 0 })
  | 0xC =>
    if t.A &&& 4 ≠ 0 then .ok t
    else
      match t.writeWord ((t.A + oper * 4) % 4294967296) t.B with
      | .error e => .error e
      | .ok t1 => .ok (advanceInstr { t1 with O := 0, A := t.C })
  | 0xD =>
    if t.A &&& 4 ≠ 0 then .ok t
    else .ok (advanceInstr { t with A := (t.A + oper * 4) % 4294967296, O := 0 })
  | 0xE => .ok t
  | 0xF => .ok { t with O := 0, W := (t.W + 4 * oper) % 4294967296 }
  | _ => .ok t

/-- `Transputer::reset()`. -/
def reset (t : Transputer) : Transputer :=
  { t with tickCount := 0, I := 0, W := 0, O := 0, A := 0, B := 0, C := 0,
           mem := t.mem.clearMemory }

/-- `Transputer::tick()`: the fetch `instrBuf[I]` is undefined outside the buffer;
`tickCount` is a `u64`. -/
def tick (t : Transputer) : Except Fault Transputer :=
  match t.instrBuf.get? t.I with
  | none => .error .undefinedAccess
  | some instr =>
    match t.doInstr instr with
    | .error e => .error e
    | .ok t1 => .ok { t1 with tickCount := (t1.tickCount + 1) % 18446744073709551616 }

/-- The operand the machine has formed at the last byte of a byte sequence: every
byte but the last is executed by `doInstr`, and the result is `oper` of `doInstr`
at the last byte. `none` for the empty sequence or when a step faults. -/
def lastOper (t : Transputer) : List Nat → Option Nat
  | [] => none
  | [b] => some (operOf t.O b)
  | b :: b2 :: bs =>
    match t.doInstr b with
    | .error _ => none
    | .ok t1 => lastOper t1 (b2 :: bs)

/-- The constructor `Transputer()`: no program, the default `WriteableMemory` behind
`memPtr`, then `reset()`. -/
def new : Transputer := reset ⟨[], ⟨[]⟩, 0, 0, 0, 0, 0, 0, 0⟩

end Transputer

/-! ## Notions used in the statements -/

/-- The machine after `doInstr` has executed a byte sequence byte by byte. -/
def Transputer.runBytes (t : Transputer) : List Nat → Except Fault Transputer
  | [] => .ok t
  | b :: bs =>
    match t.doInstr b with
    | .error e => .error e
    | .ok t1 => Transputer.runBytes t1 bs

/-- The state the evaluations of `doInstr` start from: eight zero bytes of memory,
`W = O = 0`, and `A = 1`, `B = 2`, `C = 3`. -/
def stackState : Transputer := ⟨[], ⟨[0, 0, 0, 0, 0, 0, 0, 0]⟩, 0, 0, 0, 1, 2, 3, 0⟩

/-- A line the instruction scan accepts when the label table is `labels`: the body
of the loop of `scanInstructions` ends without an exception on it. -/
def lineAccepted (labels : List Label) (line : List Char) : Bool :=
  (Assembler.scanLine ⟨[], [], [], labels, [], 0, 0⟩ line).2.isNone

/-- The estimated size of a line when the buffer of the instructions `instrs` is at
the address `base`: 0 for a label line, `estimateSize()` of the instruction an
instruction line points to; `none` when the line points to no instruction of the
buffer or the union member read is not the one written. -/
def lineSize? (clz0 : Int) (base : Nat) (instrs : List Instruction) : Line → Option Nat
  | Line.label _ => some 0
  | Line.instr idx =>
    if base ≤ idx then (instrs.get? (idx - base)).bind (Instruction.estimateSize clz0)
    else none

/-- The estimated size of a line as a number. -/
def lineSize (clz0 : Int) (base : Nat) (instrs : List Instruction) (l : Line) : Nat :=
  (lineSize? clz0 base instrs l).getD 0

/-- The running `byteOffset` of `calculateOffsets` when it reaches line `k`: the
value of the variable after the loop has gone through the first `k` lines. -/
def offsetAt (clz0 : Int) (a : Assembler) (k : Nat) : Nat :=
  (Assembler.calculateOffsetsLoop clz0 (a.allLines.take k) 0 a).1.2

/-- The label texts of the label lines, in line order. -/
def labelTexts (ls : List Line) : List (List Char) :=
  ls.filterMap (fun l => match l with
    | Line.label t => some t
    | Line.instr _ => none)

/-- An assembler state with the lines `start:`, `ldc 5`, `j end:` (as an
instruction with a label pointer), `opr 0x10`, `end:`, in which every instruction
line points into the buffer of the vector (a buffer of capacity 4 at address 0). -/
def offsetsExample : Assembler :=
  ⟨[], [],
   [⟨0x6, 0, InstrVal.imm 5⟩, ⟨0x9, 0, InstrVal.labelPtr "end:".toList⟩,
    ⟨0x2, 0, InstrVal.opCode 0x10⟩],
   [⟨"start:".toList, 0⟩, ⟨"end:".toList, 0⟩],
   [Line.label "start:".toList, Line.instr 0, Line.instr 1, Line.instr 2,
    Line.label "end:".toList], 0, 4⟩

/-- The bit length of a value: the number of binary digits it is written with
(0 for the value 0). -/
def bitLength (v : Nat) : Nat := Nat.size v

/-- An assembler state with the instruction lines `ldc 8`, `ldc 1`, both pointing
into the buffer of the vector (a buffer of capacity 2 at address 0). -/
def estimateExample : Assembler :=
  ⟨[], [], [⟨0x6, 0, InstrVal.imm 8⟩, ⟨0x6, 0, InstrVal.imm 1⟩], [],
   [Line.instr 0, Line.instr 1], 0, 2⟩

/-- A source with two instruction lines before a label line. -/
def twoInstructionSource : List (List Char) :=
  ["ldc 8".toList, "ldc 1".toList, "end:".toList, []]

/-- A source in which the label text `a:` is on two label lines. -/
def duplicateLabelSource : List (List Char) :=
  ["a:".toList, "ldc 5".toList, "a:".toList, []]

/-- The number of significant hexadecimal digits of a value (0 for the value 0). -/
def hexDigits (v : Nat) : Nat := (Nat.digits 16 v).length

/-- A state of the machine with `A = 0`, `B = 1`, `C = 3`. -/
def compareState : Transputer := ⟨[], ⟨[]⟩, 0, 0, 0, 0, 1, 3, 0⟩

/-! ## Codec: the bytes of `genPrefixSeq` and what the machine decodes from them -/

theorem genPrefixSeq_unfold (c v : Nat) (buf : List Nat) :
    Assembler.genPrefixSeq c v buf =
      (if 16 ≤ v then Assembler.genPrefixSeq Assembler.pfixCode (v >>> 4) buf else buf)
        ++ [(c ||| (v &&& 0xF)) % 256] := by
  rw [Assembler.genPrefixSeq]
  by_cases h : 16 ≤ v <;> simp [h]

theorem genPrefixSeq_length_le (k : Nat) :
    ∀ (c v : Nat) (buf : List Nat), v < 16 ^ (k + 1) →
      (Assembler.genPrefixSeq c v buf).length ≤ buf.length + (k + 1) := by
  induction k with
  | zero =>
    intro c v buf hv
    rw [genPrefixSeq_unfold]
    have h : ¬ 16 ≤ v := by omega
    simp [h]
  | succ k ih =>
    intro c v buf hv
    rw [genPrefixSeq_unfold]
    by_cases h : 16 ≤ v
    · have hs : v >>> 4 < 16 ^ (k + 1) := by
        rw [Nat.shiftRight_eq_div_pow]
        have : 16 ^ (k + 1 + 1) = 16 ^ (k + 1) * 2 ^ 4 := by rw [pow_succ]; norm_num
        rw [this] at hv
        exact Nat.div_lt_of_lt_mul (by rw [Nat.mul_comm]; exact hv)
      have := ih Assembler.pfixCode (v >>> 4) buf hs
      simp [h]
      omega
    · simp [h]

theorem genPrefixSeq_length_pos (c v : Nat) (buf : List Nat) :
    0 < (Assembler.genPrefixSeq c v buf).length := by
  rw [genPrefixSeq_unfold]; simp

set_option maxRecDepth 100000 in
theorem and_240_mod_16 : ∀ b < 256, (b &&& 0xF0) % 16 = 0 := by decide

theorem and_240_of_lt_16 : ∀ b < 16, b &&& 0xF0 = 0 := by decide

theorem doInstr_high_nibble (t : Transputer) (b : Nat) (hb : b < 256)
    (hcode : b &&& 0xF0 ≠ 0) : t.doInstr b = Except.ok t := by
  have h16 := and_240_mod_16 b hb
  obtain ⟨n, hn⟩ : ∃ n, b &&& 0xF0 = n + 16 := ⟨(b &&& 0xF0) - 16, by omega⟩
  unfold Transputer.doInstr
  simp only [hn]

theorem doInstr_low_nibble (t : Transputer) (b : Nat) (hb : b < 16) :
    t.doInstr b = Except.ok
      (Transputer.advanceInstr { t with O := (Transputer.operOf t.O b <<< 4) % 4294967296 }) := by
  have h0 := and_240_of_lt_16 b hb
  unfold Transputer.doInstr
  simp only [h0]

theorem lastOper_append (xs : List Nat) (b : Nat) :
    ∀ t : Transputer, Transputer.lastOper t (xs ++ [b]) =
      match Transputer.runBytes t xs with
      | .ok t1 => some (Transputer.operOf t1.O b)
      | .error _ => none := by
  induction xs with
  | nil => intro t; rfl
  | cons x xs ih =>
    intro t
    cases xs with
    | nil =>
      simp only [List.cons_append, List.nil_append, Transputer.lastOper, Transputer.runBytes]
      cases t.doInstr x <;> rfl
    | cons y ys =>
      simp only [List.cons_append, Transputer.lastOper]
      rw [Transputer.runBytes]
      cases t.doInstr x with
      | error e => rfl
      | ok t1 =>
        exact ih t1

theorem runBytes_append (xs ys : List Nat) :
    ∀ t : Transputer, Transputer.runBytes t (xs ++ ys) =
      match Transputer.runBytes t xs with
      | .ok t1 => Transputer.runBytes t1 ys
      | .error e => .error e := by
  induction xs with
  | nil => intro t; rfl
  | cons x xs ih =>
    intro t
    simp only [List.cons_append, Transputer.runBytes]
    cases t.doInstr x with
    | error e => rfl
    | ok t1 => exact ih t1

theorem div_mul_or_mod (w : Nat) : (w / 16 * 16) ||| (w % 16) = w := by
  have h := Nat.mul_add_lt_is_or (by omega : w % 16 < 2 ^ 4) (w / 16)
  have h2 : (2 : Nat) ^ 4 = 16 := by norm_num
  rw [h2, Nat.mul_comm] at h
  rw [← h]
  omega

theorem pfix_byte (w : Nat) : (Assembler.pfixCode ||| (w &&& 0xF)) % 256 = w % 16 := by
  have h1 : w &&& 0xF = w % 16 := Nat.and_pow_two_sub_one_eq_mod w 4
  rw [h1, Assembler.pfixCode, Nat.zero_or]
  omega

theorem operOf_mod (o w : Nat) : Transputer.operOf o (w % 16) = o ||| (w % 16) := by
  have h1 : (w % 16) &&& 0xF = (w % 16) % 16 := Nat.and_pow_two_sub_one_eq_mod (w % 16) 4
  rw [Transputer.operOf, h1, Nat.mod_mod]

/-- Executing the bytes `genPrefixSeq` emits for the opcode `pfix` and a value below
`2^28`, from `O = 0`, leaves the value shifted left by four bits in `O`. -/
theorem runBytes_pfix (w : Nat) :
    ∀ t : Transputer, t.O = 0 → w < 2 ^ 28 →
      ∃ t1, Transputer.runBytes t (Assembler.genPrefixSeq Assembler.pfixCode w []) = .ok t1 ∧
        t1.O = w * 16 := by
  induction w using Nat.strong_induction_on with
  | _ w ih =>
    intro t hO hw
    rw [genPrefixSeq_unfold, pfix_byte]
    by_cases h16 : 16 ≤ w
    · have hlt : w >>> 4 < w := by simp only [Nat.shiftRight_eq_div_pow]; omega
      have hw4 : w >>> 4 < 2 ^ 28 := lt_trans hlt hw
      obtain ⟨t1, hrun, hO1⟩ := ih (w >>> 4) hlt t hO hw4
      simp only [h16, if_true, runBytes_append, hrun, Transputer.runBytes]
      rw [doInstr_low_nibble t1 (w % 16) (by omega)]
      refine ⟨_, rfl, ?_⟩
      simp only [Transputer.advanceInstr, operOf_mod, hO1, Nat.shiftRight_eq_div_pow]
      have : (2 : Nat) ^ 4 = 16 := by norm_num
      rw [this, div_mul_or_mod, Nat.shiftLeft_eq, this]
      norm_num at hw
      omega
    · simp only [h16, if_false, List.nil_append, Transputer.runBytes]
      rw [doInstr_low_nibble t (w % 16) (by omega)]
      refine ⟨_, rfl, ?_⟩
      simp only [Transputer.advanceInstr, operOf_mod, hO, Nat.zero_or, Nat.shiftLeft_eq]
      omega

theorem last_nibble : ∀ c < 16, ∀ r < 16, ((c ||| r) % 256) &&& 0xF = r ||| c := by decide

/-- What the machine decodes from the bytes of `genPrefixSeq(b, v)`, for every opcode
`b` of the table and every `u32` value `v`: from `O = 0` the operand formed at the
last byte is `v | b`, the opcode merged into the low nibble of the value. It is `v`
exactly when the bits of `b` are among the low four bits of `v`. -/
theorem lastOper_genPrefixSeq (t : Transputer) (hO : t.O = 0) (b v : Nat) (hb : b < 16)
    (hv : v < 4294967296) :
    Transputer.lastOper t (Assembler.genPrefixSeq b v []) = some (v ||| b) := by
  have h1 : v &&& 0xF = v % 16 := Nat.and_pow_two_sub_one_eq_mod v 4
  have hn := last_nibble b hb (v % 16) (by omega)
  rw [genPrefixSeq_unfold, lastOper_append, h1]
  by_cases h16 : 16 ≤ v
  · have hw4 : v >>> 4 < 2 ^ 28 := by
      simp only [Nat.shiftRight_eq_div_pow]; norm_num; omega
    obtain ⟨t1, hrun, hO1⟩ := runBytes_pfix (v >>> 4) t hO hw4
    have hsh : v >>> 4 = v / 16 := by simp [Nat.shiftRight_eq_div_pow]
    simp only [h16, if_true, hrun, Transputer.operOf, hn, hO1]
    rw [hsh, ← Nat.or_assoc, div_mul_or_mod]
  · simp only [h16, if_false, Transputer.runBytes, Transputer.operOf, hn, hO, Nat.zero_or]
    have : v % 16 = v := by omega
    rw [this]

/-- Claim C1, evaluated on the code. The claim: decoding the bytes of
`genPrefixSeq(b, v)` gives back `v`. For `b = 0x6` (`ldc`) and `v = 5` the encoder
appends the single byte `0x6 | 0x5 = 0x07`, the opcode sharing the low nibble with
the operand, and the machine started by the constructor (`O = 0`) forms the operand
`7` at that byte, not `5`. -/
theorem C1_roundtrip_ldc_5 :
    Assembler.genPrefixSeq 0x6 5 [] = [0x07] ∧
    Transputer.lastOper Transputer.new (Assembler.genPrefixSeq 0x6 5 []) = some 7 := by
  constructor
  · simp [genPrefixSeq_unfold]; decide
  · simp [genPrefixSeq_unfold, Transputer.lastOper, Transputer.operOf, Transputer.new,
      Transputer.reset]
    decide

/-! ## Jumps: width and delta -/

theorem deltaOffset_lt (atOffset labelOffset : Nat) :
    Instruction.deltaOffset atOffset labelOffset < 4294967296 := by
  unfold Instruction.deltaOffset
  exact Nat.mod_lt _ (by norm_num)

theorem padJump_length (buf : List Nat) (h : buf.length ≤ 8) :
    (Instruction.padJump buf).length = 8 := by
  simp [Instruction.padJump]; omega

/-- Claim C2: for a jump or conditional-jump instruction whose label pointer
resolves to a label of the table, `Instruction::assemble(atOffset)` returns, for
every `atOffset` and every offset of the label, exactly 8 bytes: the sequence of
`genPrefixSeq` for the delta followed only by copies of `noopCode`. -/
theorem C2_jump_is_8_bytes (ins : Instruction) (labels : List Label) (atOffset : Nat)
    (text : List Char) (l : Label)
    (hjump : ins.isJump = true)
    (hval : ins.instrVal = InstrVal.labelPtr text)
    (hlabel : labels.find? (fun l => decide (l.text = text)) = some l) :
    ∃ bytes k,
      ins.assemble labels atOffset = some bytes ∧
      bytes = Assembler.genPrefixSeq ins.instrCode
                (Instruction.deltaOffset atOffset l.offset) []
              ++ List.replicate k Assembler.noopCode ∧
      bytes.length = 8 := by
  have hlen : (Assembler.genPrefixSeq ins.instrCode
      (Instruction.deltaOffset atOffset l.offset) []).length ≤ 8 := by
    have := genPrefixSeq_length_le 7 ins.instrCode
      (Instruction.deltaOffset atOffset l.offset) []
      (lt_of_lt_of_le (deltaOffset_lt _ _) (by norm_num))
    simpa using this
  refine ⟨Instruction.padJump (Assembler.genPrefixSeq ins.instrCode
      (Instruction.deltaOffset atOffset l.offset) []), _, ?_, rfl, padJump_length _ hlen⟩
  have hop : ins.isOperation = false := by
    simp only [Instruction.isJump, Instruction.isOperation, Assembler.jCode, Assembler.cjCode,
      Assembler.oprCode, Bool.or_eq_true, decide_eq_true_eq, decide_eq_false_iff_not] at hjump ⊢
    omega
  simp [Instruction.assemble, Instruction.hasImmediate, hjump, hop, hval, hlabel]

/-- Claim C2 at a conditional jump assembled at offset 8 to a label at offset 24. -/
theorem C2_jump_is_8_bytes_witness :
    ∃ bytes k,
      Instruction.assemble ⟨0xA, 0, InstrVal.labelPtr "loop:".toList⟩
          [⟨"loop:".toList, 24⟩] 8 = some bytes ∧
      bytes = Assembler.genPrefixSeq 0xA (Instruction.deltaOffset 8 24) []
              ++ List.replicate k Assembler.noopCode ∧
      bytes.length = 8 :=
  C2_jump_is_8_bytes ⟨0xA, 0, InstrVal.labelPtr "loop:".toList⟩ [⟨"loop:".toList, 24⟩] 8
    "loop:".toList ⟨"loop:".toList, 24⟩ (by decide) rfl (by decide)

/-- Claim C7, evaluated on the code. The claim: the operand a jump passes to the
encoder is `targetOffset - currentOffset`. For `j` assembled at offset 0 with its
label at offset 8 that is `8`; `assemble` computes `atOffset - labelOffset`, which
is `0 - 8 = 4294967288` in `u32`, and emits its eight nibbles. -/
theorem C7_jump_delta_reversed :
    Instruction.deltaOffset 0 8 = 4294967288 ∧
    Instruction.assemble ⟨0x9, 0, InstrVal.labelPtr "target:".toList⟩
        [⟨"target:".toList, 8⟩] 0
      = some (Instruction.padJump (Assembler.genPrefixSeq 0x9 4294967288 [])) ∧
    Assembler.genPrefixSeq 0x9 4294967288 [] = [15, 15, 15, 15, 15, 15, 15, 9] ∧
    Assembler.genPrefixSeq 0x9 8 [] = [9] := by
  refine ⟨by decide, ?_, ?_, ?_⟩
  · have h : Instruction.deltaOffset 0 8 = 4294967288 := by decide
    simp [Instruction.assemble, Instruction.hasImmediate, Instruction.isJump,
      Instruction.isOperation, Assembler.jCode, Assembler.cjCode, Assembler.oprCode, h]
  · simp [genPrefixSeq_unfold, Assembler.pfixCode]; decide
  · simp [genPrefixSeq_unfold]; decide

/-! ## Memory and the stack registers -/

/-- Claim C3, evaluated on the code. The claim: a word access is rejected by
`checkWordAccess` unless `0 <= addr <= capacity - 4` and `addr % 4 == 0`, also for
the capacities 0 to 3. On the empty memory (capacity 0, the memory the constructor
of the machine creates) and on a memory of 2 bytes, `checkWordAccess(0)` accepts the
address 0: `getSize() - 3` wraps around in `u32`. `readWord` and `setWord` then go
on to bytes outside the vector instead of failing with the out-of-bounds error. -/
theorem C3_checkWordAccess_capacity_0 :
    Memory.checkWordAccess ⟨[]⟩ 0 = Except.ok () ∧
    Memory.checkWordAccess ⟨[0, 0]⟩ 0 = Except.ok () ∧
    Memory.readWord ⟨[]⟩ 0 = Except.error Fault.undefinedAccess ∧
    Memory.setWord ⟨[]⟩ 0 7 = Except.error Fault.undefinedAccess := by
  decide

/-- Claim C4, evaluated on the code. The claim: `readWord(addr)` returns
`b0*2^24 + b1*2^16 + b2*2^8 + b3`. On the four bytes 1, 2, 3, 4 at address 0 that
is `0x01020304 = 16909060`; the loop of `readWord` shifts after it merges, so the
code returns `0x02030400 = 33752064`: the first byte is lost and the low byte is 0. -/
theorem C4_readWord_1234 :
    Memory.readWord ⟨[1, 2, 3, 4]⟩ 0 = Except.ok 33752064 ∧
    (33752064 : Nat) ≠ 1 * 2 ^ 24 + 2 * 2 ^ 16 + 3 * 2 ^ 8 + 4 := by
  decide

/-- Claim C5, evaluated on the code. The claim: a byte with the load-local opcode
`0x3` in its opcode nibble moves `A` to `B` and `B` to `C`, and one with the
store-local opcode `0x4` moves `B` to `A` and `C` to `B`. From `A = 1, B = 2, C = 3`
with memory in which the word at `W + oper = 0` can be read and written: the bytes
`0x30` and `0x40` give `code = 0x30` and `0x40`, which no case label of the
`switch` has, and leave every register as it was; the bytes `0x03` and `0x04` (the
opcode in the low nibble, as the assembler emits it) give `code = 0` and run the
`pfix` case. In all four steps `A = 1, B = 2, C = 3` afterwards. -/
theorem C5_ldl_stl_not_dispatched :
    Transputer.doInstr stackState 0x30 = Except.ok stackState ∧
    Transputer.doInstr stackState 0x40 = Except.ok stackState ∧
    Transputer.doInstr stackState 0x03 = Except.ok { stackState with O := 48, I := 1 } ∧
    Transputer.doInstr stackState 0x04 = Except.ok { stackState with O := 64, I := 1 } ∧
    stackState.mem.readWord 0 = Except.ok 0 ∧
    (stackState.mem.setWord 0 1).isOk = true := by
  decide

/-! ## Offset calculation -/

theorem lineSize?_set (clz0 : Int) (base : Nat) (instrs : List Instruction) (idx : Nat)
    (ins : Instruction) (sz : Nat) (h : instrs.get? idx = some ins) :
    lineSize? clz0 base (instrs.set idx { ins with estSize := sz })
      = lineSize? clz0 base instrs := by
  funext l
  cases l with
  | label t => rfl
  | instr j =>
    simp only [lineSize?]
    by_cases hb : base ≤ j
    · simp only [hb, if_true, List.get?_eq_getElem?, List.getElem?_set]
      by_cases hj : idx = j - base
      · rw [List.get?_eq_getElem?] at h
        have hlt : idx < instrs.length := by
          by_contra hc
          rw [List.getElem?_eq_none (by omega)] at h
          cases h
        rw [← hj]
        simp only [hlt, if_true, h, Option.bind]
        rfl
      · simp [hj]
    · simp only [hb, if_false]

theorem lineSize_set (clz0 : Int) (base : Nat) (instrs : List Instruction) (idx : Nat)
    (ins : Instruction) (sz : Nat) (h : instrs.get? idx = some ins) :
    lineSize clz0 base (instrs.set idx { ins with estSize := sz })
      = lineSize clz0 base instrs := by
  funext l
  simp only [lineSize, lineSize?_set clz0 base instrs idx ins sz h]

theorem calculateOffsetsLoop_spec (clz0 : Int) (ls : List Line) :
    ∀ (off : Nat) (a : Assembler), off < 4294967296 →
      (∀ l ∈ ls, (lineSize? clz0 a.instrBase a.allInstr l).isSome = true) →
      (Assembler.calculateOffsetsLoop clz0 ls off a).2 = none ∧
      (Assembler.calculateOffsetsLoop clz0 ls off a).1.2
        = (off + (ls.map (lineSize clz0 a.instrBase a.allInstr)).sum) % 4294967296 := by
  induction ls with
  | nil =>
    intro off a hoff _
    simp [Assembler.calculateOffsetsLoop, Nat.mod_eq_of_lt hoff]
  | cons l rest ih =>
    intro off a hoff hvalid
    cases l with
    | label t =>
      have hrest : ∀ l ∈ rest,
          (lineSize? clz0 (a.setLabelOffset t off).instrBase
            (a.setLabelOffset t off).allInstr l).isSome = true :=
        fun l hl => hvalid l (List.mem_cons_of_mem _ hl)
      have := ih off (a.setLabelOffset t off) hoff hrest
      simp only [Assembler.calculateOffsetsLoop, List.map_cons, List.sum_cons]
      refine ⟨this.1, ?_⟩
      rw [this.2]
      simp [lineSize, lineSize?, Assembler.setLabelOffset]
    | instr idx =>
      have hv := hvalid (Line.instr idx) (List.mem_cons_self _ _)
      simp only [lineSize?] at hv
      have hb : a.instrBase ≤ idx := by
        by_contra hc
        simp [hc] at hv
      simp only [hb, if_true] at hv
      cases hget : a.allInstr.get? (idx - a.instrBase) with
      | none => rw [hget] at hv; cases hv
      | some ins =>
        rw [hget] at hv
        cases hsz : ins.estimateSize clz0 with
        | none => simp [hsz] at hv
        | some sz =>
          have hrest : ∀ l ∈ rest, (lineSize? clz0 a.instrBase
              (a.allInstr.set (idx - a.instrBase) { ins with estSize := sz }) l).isSome
                = true := by
            intro l hl
            simp only [lineSize?_set clz0 a.instrBase a.allInstr _ ins sz hget]
            exact hvalid l (List.mem_cons_of_mem _ hl)
          have := ih ((off + sz) % 4294967296)
            { a with allInstr :=
                a.allInstr.set (idx - a.instrBase) { ins with estSize := sz } }
            (Nat.mod_lt _ (by norm_num)) hrest
          simp only [Assembler.calculateOffsetsLoop, hb, if_true, hget, hsz, List.map_cons,
            List.sum_cons]
          refine ⟨this.1, ?_⟩
          rw [this.2]
          simp only [lineSize_set clz0 a.instrBase a.allInstr _ ins sz hget]
          have hls : lineSize clz0 a.instrBase a.allInstr (Line.instr idx) = sz := by
            simp only [lineSize, lineSize?, hb, if_true, hget, Option.bind, hsz, Option.getD]
          rw [hls]
          omega

theorem getLabel_setLabelOffset_same (a : Assembler) (t : List Char) (off : Nat) (l : Label)
    (h : a.getLabel t = some l) :
    (a.setLabelOffset t off).getLabel t = some { l with offset := off } := by
  have ht : l.text = t := by
    have := List.find?_some h
    simpa using this
  simp only [Assembler.getLabel, Assembler.setLabelOffset, List.find?_map] at h ⊢
  have hcomp : ((fun l : Label => decide (l.text = t)) ∘
      fun l : Label => if l.text = t then { l with offset := off } else l)
      = fun l : Label => decide (l.text = t) := by
    funext x
    by_cases hx : x.text = t <;> simp [hx]
  rw [hcomp, h]
  simp [ht]

theorem getLabel_setLabelOffset_other (a : Assembler) (t t2 : List Char) (off : Nat)
    (hne : t ≠ t2) :
    ((a.setLabelOffset t2 off).getLabel t).map Label.offset
      = (a.getLabel t).map Label.offset := by
  simp only [Assembler.getLabel, Assembler.setLabelOffset, List.find?_map]
  have hcomp : ((fun l : Label => decide (l.text = t)) ∘
      fun l : Label => if l.text = t2 then { l with offset := off } else l)
      = fun l : Label => decide (l.text = t) := by
    funext x
    by_cases hx : x.text = t2 <;> simp [hx]
  rw [hcomp]
  cases hf : List.find? (fun l : Label => decide (l.text = t)) a.allLabels with
  | none => rfl
  | some l =>
    have ht : l.text = t := by
      have := List.find?_some hf
      simpa using this
    have : ¬ l.text = t2 := by rw [ht]; exact hne
    simp [this]

theorem calculateOffsetsLoop_getLabel_other (clz0 : Int) (t : List Char) (ls : List Line) :
    ∀ (off : Nat) (a : Assembler), t ∉ labelTexts ls →
      ((Assembler.calculateOffsetsLoop clz0 ls off a).1.1.getLabel t).map Label.offset
        = (a.getLabel t).map Label.offset := by
  induction ls with
  | nil => intro off a _; rfl
  | cons l rest ih =>
    intro off a hnot
    cases l with
    | label t2 =>
      have hne : t ≠ t2 := by
        intro h; apply hnot; simp [labelTexts, h]
      have hrest : t ∉ labelTexts rest := by
        intro h; apply hnot; simp only [labelTexts, List.filterMap_cons] at h ⊢
        exact List.mem_cons_of_mem _ h
      simp only [Assembler.calculateOffsetsLoop]
      rw [ih off _ hrest, getLabel_setLabelOffset_other a t t2 off hne]
    | instr idx =>
      have hrest : t ∉ labelTexts rest := by
        intro h; apply hnot; simpa [labelTexts] using h
      by_cases hb : a.instrBase ≤ idx
      · cases hget : a.allInstr.get? (idx - a.instrBase) with
        | none => simp only [Assembler.calculateOffsetsLoop, hb, if_true, hget]
        | some ins =>
          cases hsz : ins.estimateSize clz0 with
          | none => simp only [Assembler.calculateOffsetsLoop, hb, if_true, hget, hsz]
          | some sz =>
            simp only [Assembler.calculateOffsetsLoop, hb, if_true, hget, hsz]
            rw [ih _ _ hrest]
            rfl
      · simp only [Assembler.calculateOffsetsLoop, hb, if_false]

theorem calculateOffsetsLoop_label (clz0 : Int) (t : List Char) (ls : List Line) :
    ∀ (k off : Nat) (a : Assembler), off < 4294967296 →
      (∀ l ∈ ls, (lineSize? clz0 a.instrBase a.allInstr l).isSome = true) →
      ls.get? k = some (Line.label t) →
      (labelTexts ls).Nodup →
      (a.getLabel t).isSome = true →
      ((Assembler.calculateOffsetsLoop clz0 ls off a).1.1.getLabel t).map Label.offset
        = some ((off + ((ls.take k).map (lineSize clz0 a.instrBase a.allInstr)).sum) % 4294967296) := by
  induction ls with
  | nil => intro k off a _ _ hk; simp at hk
  | cons l rest ih =>
    intro k off a hoff hvalid hk hnodup hreg
    cases k with
    | zero =>
      simp only [List.get?_cons_zero, Option.some.injEq] at hk
      subst hk
      have hnot : t ∉ labelTexts rest := by
        simp only [labelTexts, List.filterMap_cons, List.nodup_cons] at hnodup
        exact hnodup.1
      obtain ⟨lab, hlab⟩ := Option.isSome_iff_exists.mp hreg
      simp only [Assembler.calculateOffsetsLoop, List.take_zero, List.map_nil, List.sum_nil,
        Nat.add_zero, Nat.mod_eq_of_lt hoff]
      rw [calculateOffsetsLoop_getLabel_other clz0 t rest off _ hnot,
        getLabel_setLabelOffset_same a t off lab hlab]
      rfl
    | succ k =>
      simp only [List.get?_cons_succ] at hk
      have hmem : t ∈ labelTexts rest := by
        have := List.get?_mem hk
        simp only [labelTexts, List.mem_filterMap]
        exact ⟨Line.label t, this, rfl⟩
      cases l with
      | label t2 =>
        have hnodup2 : (labelTexts rest).Nodup ∧ t2 ∉ labelTexts rest := by
          simp only [labelTexts, List.filterMap_cons, List.nodup_cons] at hnodup
          exact ⟨hnodup.2, hnodup.1⟩
        have hne : t ≠ t2 := by
          rintro rfl; exact hnodup2.2 hmem
        have hreg2 : ((a.setLabelOffset t2 off).getLabel t).isSome = true := by
          have := getLabel_setLabelOffset_other a t t2 off hne
          have h2 := congrArg Option.isSome this
          simpa [hreg] using h2
        have := ih k off (a.setLabelOffset t2 off) hoff
          (fun l hl => hvalid l (List.mem_cons_of_mem _ hl)) hk hnodup2.1 hreg2
        simp only [Assembler.calculateOffsetsLoop, List.take_succ_cons, List.map_cons,
          List.sum_cons]
        rw [this]
        simp [lineSize, lineSize?, Assembler.setLabelOffset]
      | instr idx =>
        have hnodup2 : (labelTexts rest).Nodup := by
          simpa [labelTexts] using hnodup
        have hv := hvalid (Line.instr idx) (List.mem_cons_self _ _)
        simp only [lineSize?] at hv
        have hb : a.instrBase ≤ idx := by
          by_contra hc
          simp [hc] at hv
        simp only [hb, if_true] at hv
        cases hget : a.allInstr.get? (idx - a.instrBase) with
        | none => rw [hget] at hv; cases hv
        | some ins =>
          rw [hget] at hv
          cases hsz : ins.estimateSize clz0 with
          | none => simp [hsz] at hv
          | some sz =>
            have hrest : ∀ l ∈ rest, (lineSize? clz0 a.instrBase
                (a.allInstr.set (idx - a.instrBase) { ins with estSize := sz }) l).isSome
                  = true := by
              intro l hl
              simp only [lineSize?_set clz0 a.instrBase a.allInstr _ ins sz hget]
              exact hvalid l (List.mem_cons_of_mem _ hl)
            have := ih k ((off + sz) % 4294967296)
              { a with allInstr :=
                  a.allInstr.set (idx - a.instrBase) { ins with estSize := sz } }
              (Nat.mod_lt _ (by norm_num)) hrest hk hnodup2 hreg
            simp only [Assembler.calculateOffsetsLoop, hb, if_true, hget, hsz,
              List.take_succ_cons, List.map_cons, List.sum_cons]
            rw [this]
            simp only [lineSize_set clz0 a.instrBase a.allInstr _ ins sz hget]
            have hls : lineSize clz0 a.instrBase a.allInstr (Line.instr idx) = sz := by
              simp only [lineSize, lineSize?, hb, if_true, hget, Option.bind, hsz,
                Option.getD]
            rw [hls]
            congr 1
            omega

theorem sum_take_le (f : Line → Nat) (ls : List Line) (k : Nat) :
    ((ls.take k).map f).sum ≤ (ls.map f).sum := by
  have h := List.take_append_drop k ls
  have : (ls.map f).sum = ((ls.take k).map f).sum + ((ls.drop k).map f).sum := by
    conv_lhs => rw [← h]
    rw [List.map_append, List.sum_append]
  omega

theorem sum_take_succ (f : Line → Nat) (ls : List Line) (k : Nat) (l : Line)
    (h : ls.get? k = some l) :
    ((ls.take (k + 1)).map f).sum = ((ls.take k).map f).sum + f l := by
  rw [List.get?_eq_getElem?] at h
  rw [List.take_succ, h]
  simp

theorem sum_take_succ_none (f : Line → Nat) (ls : List Line) (k : Nat)
    (h : ls.get? k = none) :
    ((ls.take (k + 1)).map f).sum = ((ls.take k).map f).sum := by
  rw [List.get?_eq_getElem?] at h
  rw [List.take_succ, h]
  simp

theorem sum_take_labels (f : Line → Nat) (hf : ∀ t, f (Line.label t) = 0) (ls : List Line)
    (k j : Nat) (hkj : k ≤ j)
    (hlab : ∀ m, k ≤ m → m < j → ∃ t, ls.get? m = some (Line.label t)) :
    ((ls.take j).map f).sum = ((ls.take k).map f).sum := by
  induction j, hkj using Nat.le_induction with
  | base => rfl
  | succ j hj ih =>
    obtain ⟨t, ht⟩ := hlab j hj (Nat.lt_succ_self j)
    rw [sum_take_succ f ls j _ ht, hf, Nat.add_zero]
    exact ih (fun m hm hmj => hlab m hm (Nat.lt_succ_of_lt hmj))

theorem offsetAt_eq_sum (clz0 : Int) (a : Assembler)
    (hvalid : ∀ l ∈ a.allLines, (lineSize? clz0 a.instrBase a.allInstr l).isSome = true)
    (hno : (a.allLines.map (lineSize clz0 a.instrBase a.allInstr)).sum < 4294967296) (k : Nat) :
    offsetAt clz0 a k = ((a.allLines.take k).map (lineSize clz0 a.instrBase a.allInstr)).sum := by
  have h := (calculateOffsetsLoop_spec clz0 (a.allLines.take k) 0 a (by norm_num)
    (fun l hl => hvalid l (List.mem_of_mem_take hl))).2
  have hle := sum_take_le (lineSize clz0 a.instrBase a.allInstr) a.allLines k
  unfold offsetAt
  rw [h, Nat.zero_add, Nat.mod_eq_of_lt (by omega)]

/-- The loop invariant of `calculateOffsets`, for the states in which the pointers
are live. For every line sequence whose instruction lines point into the buffer of
the vector, to instructions with a readable payload, and whose label lines point to
labels of the table, in which each label text is defined once and the estimated
sizes add up to less than `2^32`: `calculateOffsets` ends without an error; the running byte offset never
decreases from one line to the next and at every line equals the sum of the
estimated sizes of the preceding lines (label lines counting 0); after the pass the
offset of every label is the running offset at its line, which is also the running
offset at any later line reached through label lines only, that is at the next
instruction line, or the total size when no instruction follows. -/
theorem calculateOffsets_live_pointers (clz0 : Int) (a : Assembler)
    (hvalid : ∀ l ∈ a.allLines, (lineSize? clz0 a.instrBase a.allInstr l).isSome = true)
    (hreg : ∀ t ∈ labelTexts a.allLines, (a.getLabel t).isSome = true)
    (honce : (labelTexts a.allLines).Nodup)
    (hno : (a.allLines.map (lineSize clz0 a.instrBase a.allInstr)).sum < 4294967296) :
    (a.calculateOffsets clz0).2 = none ∧
    (∀ k, offsetAt clz0 a k ≤ offsetAt clz0 a (k + 1)) ∧
    (∀ k, offsetAt clz0 a k = ((a.allLines.take k).map (lineSize clz0 a.instrBase a.allInstr)).sum) ∧
    offsetAt clz0 a a.allLines.length = (a.allLines.map (lineSize clz0 a.instrBase a.allInstr)).sum ∧
    (∀ k t, a.allLines.get? k = some (Line.label t) →
      ((a.calculateOffsets clz0).1.getLabel t).map Label.offset = some (offsetAt clz0 a k)) ∧
    (∀ k j t, a.allLines.get? k = some (Line.label t) → k ≤ j →
      (∀ m, k ≤ m → m < j → ∃ t2, a.allLines.get? m = some (Line.label t2)) →
      ((a.calculateOffsets clz0).1.getLabel t).map Label.offset = some (offsetAt clz0 a j)) := by
  have hsum := offsetAt_eq_sum clz0 a hvalid hno
  have hlabel : ∀ k t, a.allLines.get? k = some (Line.label t) →
      ((a.calculateOffsets clz0).1.getLabel t).map Label.offset
        = some (offsetAt clz0 a k) := by
    intro k t hk
    have h := calculateOffsetsLoop_label clz0 t a.allLines k 0 a (by norm_num) hvalid hk honce
      (hreg t (List.mem_filterMap.mpr ⟨Line.label t, List.get?_mem hk, rfl⟩))
    have hle := sum_take_le (lineSize clz0 a.instrBase a.allInstr) a.allLines k
    simp only [Assembler.calculateOffsets]
    rw [h, hsum k, Nat.zero_add, Nat.mod_eq_of_lt (by omega)]
  refine ⟨?_, ?_, hsum, ?_, hlabel, ?_⟩
  · exact (calculateOffsetsLoop_spec clz0 a.allLines 0 a (by norm_num) hvalid).1
  · intro k
    rw [hsum k, hsum (k + 1)]
    cases hk : a.allLines.get? k with
    | none => rw [sum_take_succ_none _ _ _ hk]
    | some l => rw [sum_take_succ _ _ _ l hk]; omega
  · rw [hsum, List.take_length]
  · intro k j t hk hkj hlab
    rw [hlabel k t hk, hsum k, hsum j,
      sum_take_labels (lineSize clz0 a.instrBase a.allInstr) (fun _ => rfl) a.allLines k j hkj hlab]

/-- The invariant on the lines `start:`, `ldc 5`, `j end:`, `opr 0x10`, `end:` with
live pointers: the total size is 11 and `end:` gets the offset 11. -/
theorem calculateOffsets_live_pointers_example :
    (offsetsExample.calculateOffsets 32).2 = none ∧
    offsetAt 32 offsetsExample 5 = 11 ∧
    ((offsetsExample.calculateOffsets 32).1.getLabel "end:".toList).map Label.offset
      = some 11 := by
  have h := calculateOffsets_live_pointers 32 offsetsExample (by decide) (by decide)
    (by decide) (by decide)
  refine ⟨h.1, ?_, ?_⟩
  · rw [h.2.2.1 5]; decide
  · rw [h.2.2.2.2.1 4 "end:".toList (by decide), h.2.2.1 4]; decide

theorem emplaceInstr_full (a : Assembler) (ins : Instruction)
    (h : a.allInstr.length = a.instrCap) :
    (a.emplaceInstr ins).instrBase = a.instrBase + a.instrCap := by
  unfold Assembler.emplaceInstr
  rw [if_pos h]

theorem lineSize?_dangling (clz0 : Int) (base : Nat) (instrs : List Instruction) (idx : Nat)
    (h : idx < base) : lineSize? clz0 base instrs (Line.instr idx) = none := by
  simp only [lineSize?, Nat.not_le.mpr h, if_false]

theorem calculateOffsetsLoop_dangling (clz0 : Int) (idx : Nat) (rest : List Line) (off : Nat)
    (a : Assembler) (h : idx < a.instrBase) :
    Assembler.calculateOffsetsLoop clz0 (Line.instr idx :: rest) off a
      = ((a, off), some AsmError.undefinedAccess) := by
  simp only [Assembler.calculateOffsetsLoop, Nat.not_le.mpr h, if_false]

/-- Claim C6, evaluated on the code. The claim: for every line sequence the running
offset of `calculateOffsets` is the sum of the estimated sizes of the preceding
instruction lines and a label gets the running offset at its line. On the lines
`ldc 8`, `ldc 1`, `end:` the estimates are 2 and 1, so the claim gives `end:` the
offset 3. The scan stores for `ldc 8` the address `&allInstr.back()`, 0, in the
one-element buffer at 0; the `emplace_back` of `ldc 1` finds the vector full and
moves it to the buffer at 1, and stores the address 2. In the state the scan leaves
(it ends with the exception of the terminator line) the first instruction line
points below the buffer, to no instruction: `calculateOffsets` reads the size
through a dangling pointer at its first line, for every value of `clz(0)`, and
`end:` is not given the offset 3. -/
theorem C6_dangling_instruction_pointer :
    (Assembler.new twoInstructionSource).scanLabels.2 = none ∧
    (Assembler.new twoInstructionSource).scanLabels.1.scanInstructions.1.allLines
      = [Line.instr 0, Line.instr 2, Line.label "end:".toList] ∧
    (Assembler.new twoInstructionSource).scanLabels.1.scanInstructions.1.allInstr
      = [⟨0x6, 0, InstrVal.imm 8⟩, ⟨0x6, 0, InstrVal.imm 1⟩] ∧
    (Assembler.new twoInstructionSource).scanLabels.1.scanInstructions.1.instrBase = 1 ∧
    Instruction.estimateSize 32 ⟨0x6, 0, InstrVal.imm 8⟩ = some 2 ∧
    Instruction.estimateSize 32 ⟨0x6, 0, InstrVal.imm 1⟩ = some 1 ∧
    (∀ clz0 : Int,
      lineSize? clz0 1
        (Assembler.new twoInstructionSource).scanLabels.1.scanInstructions.1.allInstr
        (Line.instr 0) = none ∧
      (Assembler.calculateOffsets clz0
        (Assembler.new twoInstructionSource).scanLabels.1.scanInstructions.1).2
          = some AsmError.undefinedAccess ∧
      ((Assembler.calculateOffsets clz0
        (Assembler.new twoInstructionSource).scanLabels.1.scanInstructions.1).1.getLabel
          "end:".toList).map Label.offset = some 0) := by
  refine ⟨by decide, by decide, by decide, by decide, by decide, by decide, ?_⟩
  intro clz0
  have hlines :
      (Assembler.new twoInstructionSource).scanLabels.1.scanInstructions.1.allLines
        = [Line.instr 0, Line.instr 2, Line.label "end:".toList] := by decide
  have hbase : (0 : Nat)
      < (Assembler.new twoInstructionSource).scanLabels.1.scanInstructions.1.instrBase := by
    decide
  refine ⟨lineSize?_dangling clz0 1 _ 0 (by decide), ?_, ?_⟩
  · simp only [Assembler.calculateOffsets, hlines,
      calculateOffsetsLoop_dangling clz0 0 _ 0 _ hbase]
  · simp only [Assembler.calculateOffsets, hlines,
      calculateOffsetsLoop_dangling clz0 0 _ 0 _ hbase]
    decide

/-! ## Runs of the assembler -/

/-- Claim C8, evaluated on the code. The claim: `ldc 5`, `ldc 3`, `opr add` and the
empty line assemble. The operate table has no entry `add` (its entry for `0x7` is a
second `and`), so the constructor of the third instruction throws and the run ends
in `scanInstructions` with the error of the `catch` block; nothing is written. -/
theorem C8_opr_add_not_assembled :
    Assembler.Map.at Assembler.operMap "add".toList = none ∧
    (Assembler.run 32
        (Assembler.new ["ldc 5".toList, "ldc 3".toList, "opr add".toList, []])).2
      = some AsmError.instructionAssemblyError ∧
    (Assembler.run 32
        (Assembler.new ["ldc 5".toList, "ldc 3".toList, "opr add".toList, []])).1.fileOut
      = [] := by
  decide

/-- Claim C9, evaluated on the code. The claim: `j target` before `target:` and the
empty line assemble. The label scan registers the whole line `target:` as the key,
the constructor of the jump looks up the operand text `target`, and the lookup
throws: the run ends in `scanInstructions` with the error of the `catch` block. -/
theorem C9_forward_jump_not_assembled :
    (Assembler.scanLabels (Assembler.new ["j target".toList, "target:".toList, []])).1.allLabels
      = [⟨"target:".toList, 0⟩] ∧
    (Assembler.scanLabels (Assembler.new ["j target".toList, "target:".toList, []])).2 = none ∧
    (Assembler.run 32 (Assembler.new ["j target".toList, "target:".toList, []])).2
      = some AsmError.instructionAssemblyError := by
  decide

theorem scanLabelsLoop_files (ls : List (List Char)) :
    ∀ a : Assembler,
      (Assembler.scanLabelsLoop ls a).1.fileOut = a.fileOut ∧
      (Assembler.scanLabelsLoop ls a).1.fileIn = a.fileIn := by
  induction ls with
  | nil => intro a; exact ⟨rfl, rfl⟩
  | cons line rest ih =>
    intro a
    unfold Assembler.scanLabelsLoop
    by_cases hlen : line.length > Assembler.MAX_LINE_LENGTH
    · simp [hlen]
    · by_cases hne : line = []
      · subst hne; simp [Assembler.MAX_LINE_LENGTH]
      · simp only [hlen, if_false, hne, ne_eq, not_false_eq_true, if_true]
        rw [(ih _).1, (ih _).2]
        by_cases hc : line.getLast? = some ':'
        · simp only [hc, if_true, Assembler.emplaceLabel]
          cases a.getLabel line <;> exact ⟨rfl, rfl⟩
        · simp [hc]

theorem scanLabelsLoop_ok (ls : List (List Char)) :
    ∀ a : Assembler,
      (∀ l ∈ ls.takeWhile (fun l => decide (l ≠ [])), l.length ≤ Assembler.MAX_LINE_LENGTH) →
      (Assembler.scanLabelsLoop ls a).2 = none := by
  induction ls with
  | nil => intro a _; rfl
  | cons line rest ih =>
    intro a h
    unfold Assembler.scanLabelsLoop
    by_cases hne : line = []
    · subst hne; simp [Assembler.MAX_LINE_LENGTH]
    · have hl : line.length ≤ Assembler.MAX_LINE_LENGTH :=
        h line (by simp [List.takeWhile, hne])
      have hlen : ¬ line.length > Assembler.MAX_LINE_LENGTH := by omega
      simp only [hlen, if_false, hne, ne_eq, not_false_eq_true, if_true]
      apply ih
      intro l hmem
      refine h l ?_
      simp only [List.takeWhile_cons, ne_eq, hne, not_false_eq_true, decide_True, if_true,
        List.mem_cons]
      exact Or.inr hmem

theorem emplaceInstr_fileOut (a : Assembler) (ins : Instruction) :
    (a.emplaceInstr ins).fileOut = a.fileOut := by
  unfold Assembler.emplaceInstr
  split <;> rfl

theorem emplaceInstr_allLabels (a : Assembler) (ins : Instruction) :
    (a.emplaceInstr ins).allLabels = a.allLabels := by
  unfold Assembler.emplaceInstr
  split <;> rfl

theorem scanLine_fileOut (a : Assembler) (line : List Char) :
    (a.scanLine line).1.fileOut = a.fileOut := by
  unfold Assembler.scanLine
  split
  · split <;> rfl
  · split
    · rfl
    · split
      · rfl
      · exact emplaceInstr_fileOut a _

theorem scanLine_allLabels (a : Assembler) (line : List Char) :
    (a.scanLine line).1.allLabels = a.allLabels := by
  unfold Assembler.scanLine
  split
  · split <;> rfl
  · split
    · rfl
    · split
      · rfl
      · exact emplaceInstr_allLabels a _

theorem Instruction_new_congr (a b : Assembler) (h : a.allLabels = b.allLabels)
    (instrDesc instrRest : List Char) :
    Instruction.new a instrDesc instrRest = Instruction.new b instrDesc instrRest := by
  simp only [Instruction.new, Assembler.getLabel, h]

theorem scanLine_error_congr (a b : Assembler) (h : a.allLabels = b.allLabels)
    (line : List Char) : (a.scanLine line).2 = (b.scanLine line).2 := by
  unfold Assembler.scanLine
  simp only [Assembler.getLabel, h]
  split
  · split <;> rfl
  · split
    · rfl
    · rw [Instruction_new_congr a b h]
      split <;> rfl

theorem span_no_space (line : List Char) (h : ' ' ∉ line) :
    line.span (fun c => decide (c ≠ ' ')) = (line, []) := by
  rw [List.span_eq_take_drop, List.takeWhile_eq_self_iff.mpr, List.dropWhile_eq_nil_iff.mpr]
  · intro c hc
    simp only [ne_eq, decide_not, Bool.not_eq_true', decide_eq_false_iff_not]
    rintro rfl; exact h hc
  · intro c hc
    simp only [ne_eq, decide_not, Bool.not_eq_true', decide_eq_false_iff_not]
    rintro rfl; exact h hc

theorem scanLine_no_space (a : Assembler) (line : List Char)
    (hcolon : line.getLast? ≠ some ':') (hspace : ' ' ∉ line) :
    a.scanLine line = (a, some AsmError.malformedInstruction) := by
  unfold Assembler.scanLine
  rw [if_neg hcolon, span_no_space line hspace]

theorem scanInstructionsLoop_missing_separator (rest : List (List Char)) (bad : List Char)
    (hcolon : bad.getLast? ≠ some ':') (hspace : ' ' ∉ bad) (pre : List (List Char)) :
    ∀ a : Assembler,
      (∀ l ∈ pre, l ≠ [] ∧ lineAccepted a.allLabels l = true) →
      (Assembler.scanInstructionsLoop (pre ++ bad :: rest) a).2
          = some AsmError.malformedInstruction ∧
      (Assembler.scanInstructionsLoop (pre ++ bad :: rest) a).1.fileOut = a.fileOut := by
  induction pre with
  | nil =>
    intro a _
    simp only [List.nil_append, Assembler.scanInstructionsLoop,
      scanLine_no_space a bad hcolon hspace, and_self]
  | cons line pre ih =>
    intro a hpre
    obtain ⟨hne, hacc⟩ := hpre line (List.mem_cons_self _ _)
    have herr : (a.scanLine line).2 = none := by
      have := scanLine_error_congr a ⟨[], [], [], a.allLabels, [], 0, 0⟩ rfl line
      rw [this]
      simpa [lineAccepted] using hacc
    have hrest : ∀ l ∈ pre, l ≠ [] ∧ lineAccepted (a.scanLine line).1.allLabels l = true := by
      intro l hl
      rw [scanLine_allLabels]
      exact hpre l (List.mem_cons_of_mem _ hl)
    have hih := ih (a.scanLine line).1 hrest
    rw [scanLine_fileOut] at hih
    simp only [List.cons_append, Assembler.scanInstructionsLoop]
    generalize hres : a.scanLine line = res at herr hih
    obtain ⟨a1, e⟩ := res
    simp only at herr hih
    subst herr
    simpa [hne] using hih

/-- Claim C10 as amended: for every source whose lines up to the first empty line
are at most 255 characters long, and in which a non-empty line that neither ends in
a colon nor contains a space comes after lines that are all non-empty and accepted
by the instruction scan, `Assembler::run` passes `scanLabels`, fails in
`scanInstructions` with the missing-separator error, and has written no byte to the
output stream. -/
theorem C10_missing_separator (clz0 : Int) (pre rest : List (List Char)) (bad : List Char)
    (hlen : ∀ l ∈ (pre ++ bad :: rest).takeWhile (fun l => decide (l ≠ [])),
      l.length ≤ Assembler.MAX_LINE_LENGTH)
    (hbad : bad ≠ [])
    (hcolon : bad.getLast? ≠ some ':')
    (hspace : ' ' ∉ bad)
    (hpre : ∀ l ∈ pre, l ≠ [] ∧
      lineAccepted (Assembler.new (pre ++ bad :: rest)).scanLabels.1.allLabels l = true) :
    (Assembler.new (pre ++ bad :: rest)).scanLabels.2 = none ∧
    (Assembler.new (pre ++ bad :: rest)).scanLabels.1.scanInstructions.2
      = some AsmError.malformedInstruction ∧
    ((Assembler.new (pre ++ bad :: rest)).run clz0).2 = some AsmError.malformedInstruction ∧
    ((Assembler.new (pre ++ bad :: rest)).run clz0).1.fileOut = [] := by
  have _ := hbad
  have hlab : (Assembler.new (pre ++ bad :: rest)).scanLabels.2 = none :=
    scanLabelsLoop_ok _ _ hlen
  have hfiles := scanLabelsLoop_files (pre ++ bad :: rest) (Assembler.new (pre ++ bad :: rest))
  have hin : (Assembler.new (pre ++ bad :: rest)).scanLabels.1.fileIn = pre ++ bad :: rest :=
    hfiles.2
  have hout : (Assembler.new (pre ++ bad :: rest)).scanLabels.1.fileOut = [] := hfiles.1
  have hscan := scanInstructionsLoop_missing_separator rest bad hcolon hspace pre
    (Assembler.new (pre ++ bad :: rest)).scanLabels.1 hpre
  have hins : (Assembler.new (pre ++ bad :: rest)).scanLabels.1.scanInstructions.2
      = some AsmError.malformedInstruction := by
    unfold Assembler.scanInstructions
    rw [hin]; exact hscan.1
  have hinsOut : (Assembler.new (pre ++ bad :: rest)).scanLabels.1.scanInstructions.1.fileOut
      = [] := by
    unfold Assembler.scanInstructions
    rw [hin, hscan.2, hout]
  refine ⟨hlab, hins, ?_, ?_⟩
  · unfold Assembler.run
    generalize hr1 : (Assembler.new (pre ++ bad :: rest)).scanLabels = r1 at hlab hins hinsOut
    obtain ⟨a1, e1⟩ := r1
    simp only at hlab hins hinsOut
    subst hlab
    generalize hr2 : a1.scanInstructions = r2 at hins hinsOut
    obtain ⟨a2, e2⟩ := r2
    simp only at hins hinsOut
    subst hins
    simp only [hr2]
  · unfold Assembler.run
    generalize hr1 : (Assembler.new (pre ++ bad :: rest)).scanLabels = r1 at hlab hins hinsOut
    obtain ⟨a1, e1⟩ := r1
    simp only at hlab hins hinsOut
    subst hlab
    generalize hr2 : a1.scanInstructions = r2 at hins hinsOut
    obtain ⟨a2, e2⟩ := r2
    simp only at hins hinsOut
    subst hins
    simp only [hr2]
    exact hinsOut

/-- Claim C10 as amended, on the lines `ldc 5`, `stl` and the empty line. -/
theorem C10_missing_separator_witness :
    ((Assembler.new ["ldc 5".toList, "stl".toList, []]).run 32).2
      = some AsmError.malformedInstruction ∧
    ((Assembler.new ["ldc 5".toList, "stl".toList, []]).run 32).1.fileOut = [] :=
  (C10_missing_separator 32 ["ldc 5".toList] [[]] "stl".toList
    (by decide) (by decide) (by decide) (by decide) (by decide)).2.2

set_option maxRecDepth 100000 in
/-- Claim C10 as stated fails on a source whose only line before the terminator is
256 letters `a`: it has no colon and no space, and the run fails in `scanLabels`
with the line-length exception, not in `scanInstructions`. -/
theorem C10_counterexample_line_too_long :
    List.replicate 256 'a' ≠ [] ∧
    (List.replicate 256 'a').getLast? ≠ some ':' ∧
    ' ' ∉ List.replicate 256 'a' ∧
    (Assembler.new [List.replicate 256 'a', []]).scanLabels.2 = some AsmError.lineTooLong ∧
    (Assembler.run 32 (Assembler.new [List.replicate 256 'a', []])).2
      = some AsmError.lineTooLong ∧
    (Assembler.run 32 (Assembler.new [List.replicate 256 'a', []])).2
      ≠ some AsmError.malformedInstruction := by
  decide

/-! ## Which error a memory access gives -/

/-- The bound `checkWordAccess` compares with is `getSize() - 3` modulo `2^32`. -/
theorem checkWordAccess_bound (m : Memory) :
    (if 3 ≤ m.getSize then m.getSize - 3 else m.getSize + 4294967293)
      = (m.getSize + 4294967296 - 3) % 4294967296 := by
  have h : m.getSize < 4294967296 := Nat.mod_lt _ (by norm_num)
  split <;> omega

theorem checkWordAccess_misaligned (m : Memory) (addr : Nat) (h4 : 4 ≤ m.memData.length)
    (hsz : m.memData.length < 4294967296) (hin : addr ≤ m.memData.length - 4)
    (hmis : addr % 4 ≠ 0) : m.checkWordAccess addr = Except.error Fault.misaligned := by
  have hand : addr &&& 3 = addr % 4 := Nat.and_pow_two_sub_one_eq_mod addr 2
  unfold Memory.checkWordAccess Memory.getSize
  have hb : (if 3 ≤ m.memData.length then m.memData.length - 3
      else m.memData.length + 4294967293) = m.memData.length - 3 := if_pos (by omega)
  rw [Nat.mod_eq_of_lt hsz, hand, hb, if_neg (by omega), if_pos hmis]

theorem checkWordAccess_outOfBounds (m : Memory) (addr : Nat) (h4 : 4 ≤ m.memData.length)
    (hsz : m.memData.length < 4294967296) (hout : addr > m.memData.length - 4) :
    m.checkWordAccess addr = Except.error Fault.outOfBounds := by
  unfold Memory.checkWordAccess Memory.getSize
  have hb : (if 3 ≤ m.memData.length then m.memData.length - 3
      else m.memData.length + 4294967293) = m.memData.length - 3 := if_pos (by omega)
  rw [Nat.mod_eq_of_lt hsz, hb, if_pos (by omega)]

theorem readWord_of_check_error (m : Memory) (addr : Nat) (e : Fault)
    (h : m.checkWordAccess addr = Except.error e) : m.readWord addr = Except.error e := by
  unfold Memory.readWord
  rw [h]

/-- Claim C11: for every memory of capacity at least 4 (a capacity is set from an
`int`, so it is below `2^32`), `readWord` at a misaligned address
`addr <= capacity - 4` fails with the misalignment error and `readWord` at an
address `addr > capacity - 4` fails with the out-of-bounds error; on a memory of 8
bytes `readWord(2)` fails with the former and `readWord(8)` with the latter. -/
theorem C11_readWord_errors (m : Memory) (addr : Nat) (h4 : 4 ≤ m.memData.length)
    (hsz : m.memData.length < 4294967296) :
    (addr ≤ m.memData.length - 4 → addr % 4 ≠ 0 →
      m.readWord addr = Except.error Fault.misaligned) ∧
    (addr > m.memData.length - 4 → m.readWord addr = Except.error Fault.outOfBounds) ∧
    (m.memData.length = 8 →
      m.readWord 2 = Except.error Fault.misaligned ∧
      m.readWord 8 = Except.error Fault.outOfBounds) := by
  refine ⟨?_, ?_, ?_⟩
  · intro hin hmis
    exact readWord_of_check_error m addr _ (checkWordAccess_misaligned m addr h4 hsz hin hmis)
  · intro hout
    exact readWord_of_check_error m addr _ (checkWordAccess_outOfBounds m addr h4 hsz hout)
  · intro h8
    exact ⟨readWord_of_check_error m 2 _
        (checkWordAccess_misaligned m 2 h4 hsz (by omega) (by decide)),
      readWord_of_check_error m 8 _ (checkWordAccess_outOfBounds m 8 h4 hsz (by omega))⟩

/-- Claim C11 at the memory of eight zero bytes. -/
theorem C11_readWord_errors_witness :
    Memory.readWord ⟨[0, 0, 0, 0, 0, 0, 0, 0]⟩ 2 = Except.error Fault.misaligned ∧
    Memory.readWord ⟨[0, 0, 0, 0, 0, 0, 0, 0]⟩ 8 = Except.error Fault.outOfBounds :=
  (C11_readWord_errors ⟨[0, 0, 0, 0, 0, 0, 0, 0]⟩ 2 (by decide) (by decide)).2.2 rfl

theorem store_ok (m : Memory) (i v : Nat) (h : i < m.memData.length) :
    m.store i v = Except.ok ⟨m.memData.set i v⟩ := by
  unfold Memory.store
  rw [if_pos h]

/-- Claim C12: for every memory (its capacity below `2^32`, being set from an `int`)
and every index `i`: when `i >= capacity`, `readByte(i)` and `writeByte(i, v)` fail
with the out-of-bounds error; when `i < capacity` neither fails, `readByte(i)`
returns the byte at `i`, and `writeByte(i, v)` yields a memory with `v` at `i`,
every other byte as before and the same capacity. -/
theorem C12_byte_access (m : Memory) (i v : Nat) (hsz : m.memData.length < 4294967296) :
    (i ≥ m.memData.length →
      m.readByte i = Except.error Fault.outOfBounds ∧
      m.writeByte i v = Except.error Fault.outOfBounds) ∧
    (i < m.memData.length →
      (∃ b, m.memData.get? i = some b ∧ m.readByte i = Except.ok b) ∧
      (∃ m2, m.writeByte i v = Except.ok m2 ∧
        m2.memData.get? i = some v ∧
        (∀ j, j ≠ i → m2.memData.get? j = m.memData.get? j) ∧
        m2.memData.length = m.memData.length)) := by
  have hcheck : m.checkByteAccess i
      = if i ≥ m.memData.length then Except.error Fault.outOfBounds else Except.ok () := by
    unfold Memory.checkByteAccess Memory.getSize
    rw [Nat.mod_eq_of_lt hsz]
  constructor
  · intro hge
    unfold Memory.readByte Memory.writeByte
    rw [hcheck, if_pos hge]
    exact ⟨rfl, rfl⟩
  · intro hlt
    have hnge : ¬ i ≥ m.memData.length := by omega
    constructor
    · refine ⟨m.memData.get ⟨i, hlt⟩, List.get?_eq_get hlt, ?_⟩
      unfold Memory.readByte Memory.getByte
      rw [hcheck, if_neg hnge, List.get?_eq_get hlt]
    · refine ⟨⟨m.memData.set i v⟩, ?_, ?_, ?_, ?_⟩
      · unfold Memory.writeByte
        rw [hcheck, if_neg hnge]
        exact store_ok m i v hlt
      · simp [hlt]
      · intro j hj
        simp [List.getElem?_set, Ne.symm hj]
      · simp

/-- Claim C12 on a memory of four bytes: index 4 is rejected, index 2 is written. -/
theorem C12_byte_access_witness :
    Memory.readByte ⟨[1, 2, 3, 4]⟩ 4 = Except.error Fault.outOfBounds ∧
    Memory.writeByte ⟨[1, 2, 3, 4]⟩ 4 9 = Except.error Fault.outOfBounds ∧
    Memory.writeByte ⟨[1, 2, 3, 4]⟩ 2 9 = Except.ok ⟨[1, 2, 9, 4]⟩ :=
  ⟨((C12_byte_access ⟨[1, 2, 3, 4]⟩ 4 9 (by decide)).1 (by decide)).1,
   ((C12_byte_access ⟨[1, 2, 3, 4]⟩ 4 9 (by decide)).1 (by decide)).2,
   by decide⟩

/-! ## The encoder on negative values -/

/-- Claim C13, evaluated on the code. The claim: for a negative `v` the bytes of
`genPrefixSeq(b, v)` are those of `genPrefixSeq(nfix, ~v >> 4)` followed by
`b | (v & 0xF)`. For `b = 0x6` and `v = -1`, the `u32` `4294967295`, the claimed
sequence is the two bytes `1, 15`; `vImm` is unsigned, so the test `vImm < 0` never
holds, the `pfix` branch is taken and the code appends eight bytes. -/
theorem C13_negative_value_uses_pfix :
    Assembler.genPrefixSeq 0x6 4294967295 [] = [15, 15, 15, 15, 15, 15, 15, 15] ∧
    Assembler.genPrefixSeq 0x6 4294967295 []
      = Assembler.genPrefixSeq Assembler.pfixCode (4294967295 >>> 4) []
        ++ [(0x6 ||| (4294967295 &&& 0xF)) % 256] ∧
    Assembler.genPrefixSeq Assembler.nfixCode ((4294967295 - 4294967295) >>> 4) []
        ++ [(0x6 ||| (4294967295 &&& 0xF)) % 256] = [1, 15] := by
  refine ⟨?_, ?_, ?_⟩
  · simp [genPrefixSeq_unfold, Assembler.pfixCode]; decide
  · rw [genPrefixSeq_unfold]; simp
  · simp [genPrefixSeq_unfold, Assembler.nfixCode]; decide

/-! ## Estimated sizes -/

theorem clzLoop_add_size (k : Nat) : ∀ x : Nat, x < 2 ^ k → clzLoop k x + Nat.size x = k := by
  induction k with
  | zero =>
    intro x hx
    have h0 : x = 0 := by simpa using hx
    subst h0
    simp [clzLoop]
  | succ k ih =>
    intro x hx
    unfold clzLoop
    by_cases hbit : x.testBit k = true
    · rw [if_pos hbit]
      have hge : 2 ^ k ≤ x := by
        by_contra hlt
        have := Nat.testBit_lt_two_pow (Nat.lt_of_not_le hlt)
        rw [this] at hbit
        cases hbit
      have h1 : Nat.size x ≤ k + 1 := Nat.size_le.mpr hx
      have h2 : k < Nat.size x := Nat.lt_size.mpr hge
      omega
    · rw [if_neg hbit]
      have hlt : x < 2 ^ k := by
        apply Nat.lt_pow_two_of_testBit
        intro i hi
        by_cases hik : i = k
        · subst hik; simpa using hbit
        · apply Nat.testBit_lt_two_pow
          exact lt_of_lt_of_le hx (Nat.pow_le_pow_right (by norm_num) (by omega))
      have := ih x hlt
      omega

theorem builtin_clz_eq (clz0 : Int) (v : Nat) (hpos : 0 < v) (hv : v < 4294967296) :
    builtin_clz clz0 v = 32 - (bitLength v : Int) := by
  have hmod : v % 4294967296 = v := Nat.mod_eq_of_lt hv
  have hne : ¬ v % 4294967296 = 0 := by omega
  have hsum := clzLoop_add_size 32 v (by norm_num; exact hv)
  unfold builtin_clz bitLength
  rw [if_neg hne, hmod]
  omega

theorem bitLength_le (v : Nat) (hv : v < 4294967296) : bitLength v ≤ 32 :=
  Nat.size_le.mpr (by norm_num; exact hv)

theorem estimateSize_imm (clz0 : Int) (ins : Instruction) (v : Nat)
    (himm : ins.hasImmediate = true) (hval : ins.instrVal = InstrVal.imm v)
    (hpos : 0 < v) (hv : v < 4294967296) :
    ins.estimateSize clz0 = some (1 + bitLength v / 4) := by
  have hj : ins.isJump = false := by
    simp only [Instruction.hasImmediate, Bool.and_eq_true, Bool.not_eq_true'] at himm
    exact himm.1
  have ho : ins.isOperation = false := by
    simp only [Instruction.hasImmediate, Bool.and_eq_true, Bool.not_eq_true'] at himm
    exact himm.2
  have hle := bitLength_le v hv
  unfold Instruction.estimateSize
  simp only [hj, ho, hval, Bool.false_eq_true, if_false]
  rw [builtin_clz_eq clz0 v hpos hv]
  have h1 : (32 : Int) - (32 - (bitLength v : Int)) = ((bitLength v : Nat) : Int) := by omega
  rw [h1, Int.tdiv_eq_ediv (by omega) (by norm_num)]
  refine congrArg some ?_
  omega

/-- Claim C14 as amended: `estimateSize()` returns 8 for a jump or conditional jump,
1 for an operate instruction whose sub-operation code is below 16 and 2 otherwise,
and `1 + floor(bitLength(value) / 4)` for an immediate instruction with a non-zero
`u32` value. -/
theorem C14_estimateSize (clz0 : Int) (ins : Instruction) :
    (ins.isJump = true → ins.estimateSize clz0 = some 8) ∧
    (∀ c, ins.isOperation = true → ins.instrVal = InstrVal.opCode c →
      ins.estimateSize clz0 = some (if c < 16 then 1 else 2)) ∧
    (∀ v, ins.hasImmediate = true → ins.instrVal = InstrVal.imm v → 0 < v → v < 4294967296 →
      ins.estimateSize clz0 = some (1 + bitLength v / 4)) := by
  refine ⟨?_, ?_, ?_⟩
  · intro hj
    unfold Instruction.estimateSize
    rw [if_pos hj]
  · intro c ho hval
    have hj : ins.isJump = false := by
      simp only [Instruction.isJump, Instruction.isOperation, Assembler.jCode, Assembler.cjCode,
        Assembler.oprCode, Bool.or_eq_false_iff, decide_eq_true_eq, decide_eq_false_iff_not] at ho ⊢
      omega
    unfold Instruction.estimateSize
    simp only [hj, ho, hval, Bool.false_eq_true, if_false, if_true]
    by_cases hc : c < 16
    · have : ¬ c ≥ 16 := by omega
      simp [hc, this]
    · have : c ≥ 16 := by omega
      simp [hc, this]
  · intro v himm hval hpos hv
    exact estimateSize_imm clz0 ins v himm hval hpos hv

/-- Claim C14 as amended, at `j`, `opr 0x10`, `ldc 5` and `ldc 8`. -/
theorem C14_estimateSize_witness :
    Instruction.estimateSize 32 ⟨0x9, 0, InstrVal.labelPtr "l:".toList⟩ = some 8 ∧
    Instruction.estimateSize 32 ⟨0x2, 0, InstrVal.opCode 0x10⟩ = some 2 ∧
    Instruction.estimateSize 32 ⟨0x6, 0, InstrVal.imm 8⟩ = some (1 + bitLength 8 / 4) :=
  ⟨(C14_estimateSize 32 ⟨0x9, 0, InstrVal.labelPtr "l:".toList⟩).1 (by decide),
   (C14_estimateSize 32 ⟨0x2, 0, InstrVal.opCode 0x10⟩).2.1 0x10 (by decide) rfl,
   (C14_estimateSize 32 ⟨0x6, 0, InstrVal.imm 8⟩).2.2 8 (by decide) rfl (by decide)
     (by decide)⟩

theorem bitLength_5 : bitLength 5 = 3 := by
  apply le_antisymm
  · exact Nat.size_le.mpr (by norm_num)
  · exact Nat.lt_size.mpr (by norm_num)

/-- Claim C14 as stated fails at `ldc 5`: the bit length of 5 is 3, the claimed
value `1 + ceil(3 / 4)` is 2, and `estimateSize()` returns 1. -/
theorem C14_counterexample_ldc_5 :
    Instruction.estimateSize 32 ⟨0x6, 0, InstrVal.imm 5⟩ = some 1 ∧
    1 + (bitLength 5 + 3) / 4 = 2 := by
  refine ⟨by decide, ?_⟩
  rw [bitLength_5]

/-! ## The instruction pointer, the operate table and reset -/

/-- Claim C15, evaluated on the code. The claim: a step on a byte that is neither a
jump nor a conditional jump leaves `I` at the prior `I + 1`, and a jump byte leaves
it at the prior `I + 1 + oper`. From `I = 0`: the load-constant byte `0x60` and the
jump byte `0x90` give a `code` no case label of the `switch` has, and `I` stays 0;
the jump opcode in the low nibble, `0x09`, runs the `pfix` case and leaves `I = 1`,
where the operand is 9 and the claim says `I = 10`. -/
theorem C15_instruction_pointer_not_advanced :
    Transputer.doInstr stackState 0x60 = Except.ok stackState ∧
    Transputer.doInstr stackState 0x90 = Except.ok stackState ∧
    stackState.I = 0 ∧
    Transputer.operOf stackState.O 0x09 = 9 ∧
    Transputer.doInstr stackState 0x09 = Except.ok { stackState with O := 144, I := 1 } := by
  decide

/-- Claim C16 as amended: the operate table has 14 entries, and their sub-code
values are pairwise distinct, the values `0x0` to `0xD` in order. -/
theorem C16_operMap_values_distinct :
    Assembler.operMap.length = 14 ∧
    (Assembler.operMap.map Prod.snd).Nodup ∧
    Assembler.operMap.map Prod.snd = List.range 14 := by
  decide

/-- Claim C16 as stated fails on the table: no two entries of `operMap` are bound to
the same sub-code value. -/
theorem C16_counterexample_no_shared_value :
    List.Pairwise (fun e1 e2 : List Char × Nat => e1.2 ≠ e2.2) Assembler.operMap := by
  decide

/-- The duplication in `operMap` is one of the mnemonic: the text `and` is on two
entries, with the sub-codes `0x4` and `0x7`, and the lookup finds the first. -/
theorem operMap_and_twice :
    (Assembler.operMap.filter (fun e => decide (e.1 = "and".toList))).map Prod.snd = [0x4, 0x7] ∧
    Assembler.Map.at Assembler.operMap "and".toList = some 0x4 := by
  decide

/-- Claim C18: from every state of the machine, `reset()` leaves `I`, `W`, `O`, `A`,
`B`, `C` and the tick counter at 0 and every byte of the memory at 0, and leaves the
program buffer and the capacity of the memory as they were. -/
theorem C18_reset (t : Transputer) :
    t.reset.I = 0 ∧ t.reset.W = 0 ∧ t.reset.O = 0 ∧
    t.reset.A = 0 ∧ t.reset.B = 0 ∧ t.reset.C = 0 ∧
    t.reset.tickCount = 0 ∧
    (∀ b ∈ t.reset.mem.memData, b = 0) ∧
    t.reset.instrBuf = t.instrBuf ∧
    t.reset.mem.memData.length = t.mem.memData.length ∧
    t.reset.mem.getSize = t.mem.getSize := by
  refine ⟨rfl, rfl, rfl, rfl, rfl, rfl, rfl, ?_, rfl, ?_, ?_⟩
  · intro b hb
    simp only [Transputer.reset, Memory.clearMemory, List.mem_map] at hb
    obtain ⟨_, _, h⟩ := hb
    exact h.symm
  · simp [Transputer.reset, Memory.clearMemory]
  · simp [Transputer.reset, Memory.clearMemory, Memory.getSize]

/-- Claim C20, evaluated on the code. The claim: the sub-code the assembler binds to
a mnemonic selects the operation of that name in `doOp`. The assembler binds `rev`
to 1 and `sub` to 8 (its table starts with `noop` at 0); in `doOp` case 1 is the
equal-to-zero test and case 8 the multiplication (its table starts with the
reversal at 0). From `A = 1, B = 2`: `doOp(1)` leaves `A = 0, B = 2`, not the swap
`A = 2, B = 1` that `doOp(0)` makes; `doOp(8)` leaves `A = 1 * 2 = 2`, where
`doOp(7)`, the subtraction, leaves `A = 1 - 2 = 4294967295`. -/
theorem C20_operate_codes_shifted :
    Assembler.Map.at Assembler.operMap "rev".toList = some 1 ∧
    Assembler.Map.at Assembler.operMap "sub".toList = some 8 ∧
    Transputer.doOp stackState 1 = Except.ok { stackState with A := 0 } ∧
    Transputer.doOp stackState 0 = Except.ok { stackState with A := 2, B := 1 } ∧
    Transputer.doOp stackState 8 = Except.ok { stackState with A := 2 } ∧
    Transputer.doOp stackState 7 = Except.ok { stackState with A := 4294967295 } := by
  decide

/-! ## The instruction scan and the terminator line; estimates against emission -/

theorem scanLine_nil (a : Assembler) :
    a.scanLine [] = (a, some AsmError.malformedInstruction) :=
  scanLine_no_space a [] (by simp) (by simp)

/-- The loop of `scanInstructions` never ends without an exception: its body runs on
the empty line that ends the loop as well, and an empty line has no space. -/
theorem scanInstructionsLoop_fails (ls : List (List Char)) :
    ∀ a : Assembler, (Assembler.scanInstructionsLoop ls a).2 ≠ none := by
  induction ls with
  | nil =>
    intro a
    simp [Assembler.scanInstructionsLoop, scanLine_nil]
  | cons line rest ih =>
    intro a
    unfold Assembler.scanInstructionsLoop
    by_cases hne : line = []
    · subst hne
      simp [scanLine_nil]
    · generalize hres : a.scanLine line = res
      obtain ⟨a1, e⟩ := res
      cases e with
      | some e => simp
      | none =>
        simp only [hne, ne_eq, not_false_eq_true, if_true]
        exact ih a1

/-- Every run of the assembler ends with an exception, whatever the source. -/
theorem run_fails (clz0 : Int) (a : Assembler) : (a.run clz0).2 ≠ none := by
  unfold Assembler.run
  generalize hr1 : a.scanLabels = r1
  obtain ⟨a1, e1⟩ := r1
  cases e1 with
  | some e => simp
  | none =>
    have h := scanInstructionsLoop_fails a1.fileIn a1
    unfold Assembler.scanInstructions
    generalize hr2 : Assembler.scanInstructionsLoop a1.fileIn a1 = r2 at h
    obtain ⟨a2, e2⟩ := r2
    cases e2 with
    | some e => simp [hr2]
    | none => exact absurd rfl h

/-- Claim C17, evaluated on the code. The claim: with the label text `a:` on two
label lines, neither scan fails and after `calculateOffsets` the label has the
offset of the later line. On the lines `a:`, `ldc 5`, `a:` and the empty line the
label scan succeeds and the instruction scan records both label lines with the one
label `a:`, but then runs its body on the empty terminator line and throws the
missing-separator exception, so the run ends there. Applied to the state at the
exception, `calculateOffsets` would leave the label at offset 1, that of the later
line. -/
theorem C17_duplicate_label_scan_fails :
    (Assembler.new duplicateLabelSource).scanLabels.2 = none ∧
    (Assembler.new duplicateLabelSource).scanLabels.1.allLabels = [⟨"a:".toList, 0⟩] ∧
    (Assembler.new duplicateLabelSource).scanLabels.1.scanInstructions.2
      = some AsmError.malformedInstruction ∧
    (Assembler.new duplicateLabelSource).scanLabels.1.scanInstructions.1.allLines
      = [Line.label "a:".toList, Line.instr 0, Line.label "a:".toList] ∧
    ((Assembler.new duplicateLabelSource).run 32).2 = some AsmError.malformedInstruction ∧
    ((Assembler.calculateOffsets 32
        (Assembler.new duplicateLabelSource).scanLabels.1.scanInstructions.1).1.getLabel
          "a:".toList).map Label.offset = some 1 := by
  decide

/-- Claim C19, evaluated on the code. The claim: `estimateSize()` equals the number
of bytes `assemble()` returns, so that emission offsets equal the offsets of
`calculateOffsets`. For `ldc 8` the estimate is `1 + (32 - 28) / 4 = 2` and
`assemble` returns the one byte `0x6 | 0x8 = 14`; for `ldc -1` the estimate is 9 and
`assemble` returns 8 bytes. With `ldc 8` followed by `ldc 1`, `calculateOffsets`
has accumulated 2 before the second instruction, and `Assembler::assemble` writes
its byte at offset 1. -/
theorem C19_estimate_differs_from_emission :
    Instruction.estimateSize 32 ⟨0x6, 0, InstrVal.imm 8⟩ = some 2 ∧
    Instruction.assemble ⟨0x6, 0, InstrVal.imm 8⟩ [] 0 = some [14] ∧
    Instruction.estimateSize 32 ⟨0x6, 0, InstrVal.imm 4294967295⟩ = some 9 ∧
    (Instruction.assemble ⟨0x6, 0, InstrVal.imm 4294967295⟩ [] 0).map List.length = some 8 ∧
    offsetAt 32 estimateExample 1 = 2 ∧
    estimateExample.assemble.1.fileOut = [14, 7] := by
  refine ⟨by decide, ?_, by decide, ?_, by decide, ?_⟩
  · simp [Instruction.assemble, Instruction.hasImmediate, Instruction.isJump,
      Instruction.isOperation, Assembler.jCode, Assembler.cjCode, Assembler.oprCode,
      genPrefixSeq_unfold]
    decide
  · simp [Instruction.assemble, Instruction.hasImmediate, Instruction.isJump,
      Instruction.isOperation, Assembler.jCode, Assembler.cjCode, Assembler.oprCode,
      genPrefixSeq_unfold, Assembler.pfixCode]
  · simp [Assembler.assemble, Assembler.assembleLoop, estimateExample, Instruction.assemble,
      Instruction.hasImmediate, Instruction.isJump, Instruction.isOperation, Assembler.jCode,
      Assembler.cjCode, Assembler.oprCode, genPrefixSeq_unfold]
    decide

/-! ## The value of a word read -/

theorem checkWordAccess_ok (m : Memory) (addr : Nat) (hlen : addr + 4 ≤ m.memData.length)
    (hsz : m.memData.length < 4294967296) (halign : addr % 4 = 0) :
    m.checkWordAccess addr = Except.ok () := by
  have hand : addr &&& 3 = addr % 4 := Nat.and_pow_two_sub_one_eq_mod addr 2
  have hb : (if 3 ≤ m.memData.length then m.memData.length - 3
      else m.memData.length + 4294967293) = m.memData.length - 3 := if_pos (by omega)
  unfold Memory.checkWordAccess Memory.getSize
  rw [Nat.mod_eq_of_lt hsz, hand, hb, if_neg (by omega), if_neg (by omega)]

theorem or_byte (w b : Nat) (hw : w % 256 = 0) (hb : b < 256) : w ||| b = w + b := by
  have h := Nat.mul_add_lt_is_or (by norm_num; exact hb : b < 2 ^ 8) (w / 256)
  have h2 : (2 : Nat) ^ 8 = 256 := by norm_num
  rw [h2] at h
  have h3 : 256 * (w / 256) = w := by omega
  rw [h3] at h
  exact h.symm

theorem shift_byte (y b : Nat) (hy : y % 256 = 0) (hb : b < 256) :
    (y + b) * 256 % 4294967296 = (y % 16777216 + b) * 256 := by omega

theorem readWord_arith (b0 b1 b2 b3 : Nat) (hb1 : b1 < 256) (hb2 : b2 < 256) (hb3 : b3 < 256) :
    (((b0 * 256 % 4294967296 + b1) * 256 % 4294967296 + b2) * 256 % 4294967296 + b3) * 256
        % 4294967296
      = 16777216 * b1 + 65536 * b2 + 256 * b3 := by
  have w1 : (b0 * 256 % 4294967296) % 256 = 0 := by omega
  generalize b0 * 256 % 4294967296 = y1 at w1 ⊢
  have e2 := shift_byte y1 b1 w1 hb1
  have w2 : ((y1 + b1) * 256 % 4294967296) % 65536 = b1 * 256 := by
    rw [e2]; omega
  clear e2
  generalize (y1 + b1) * 256 % 4294967296 = y2 at w2 ⊢
  clear w1 y1
  have e3 := shift_byte y2 b2 (by omega) hb2
  have w3 : ((y2 + b2) * 256 % 4294967296) % 16777216 = b1 * 65536 + b2 * 256 := by
    rw [e3]; omega
  clear e3
  generalize (y2 + b2) * 256 % 4294967296 = y3 at w3 ⊢
  clear w2 y2
  rw [shift_byte y3 b3 (by omega) hb3, w3]
  omega

/-- What `readWord` returns at an aligned address with four bytes in the vector:
the bytes at `addr + 1`, `addr + 2`, `addr + 3` in the three high bytes of the word
and 0 in the low byte; the byte at `addr` is shifted out. -/
theorem readWord_value (m : Memory) (addr b0 b1 b2 b3 : Nat)
    (hlen : addr + 4 ≤ m.memData.length) (hsz : m.memData.length < 4294967296)
    (halign : addr % 4 = 0)
    (h0 : m.memData.get? addr = some b0) (h1 : m.memData.get? (addr + 1) = some b1)
    (h2 : m.memData.get? (addr + 2) = some b2) (h3 : m.memData.get? (addr + 3) = some b3)
    (hb1 : b1 < 256) (hb2 : b2 < 256) (hb3 : b3 < 256) :
    m.readWord addr = Except.ok (16777216 * b1 + 65536 * b2 + 256 * b3) := by
  have hc := checkWordAccess_ok m addr hlen hsz halign
  have e0 : (addr + 0) % 4294967296 = addr := by omega
  have e1 : (addr + 1) % 4294967296 = addr + 1 := by omega
  have e2 : (addr + 2) % 4294967296 = addr + 2 := by omega
  have e3 : (addr + 3) % 4294967296 = addr + 3 := by omega
  have p8 : (2 : Nat) ^ 8 = 256 := by norm_num
  unfold Memory.readWord
  rw [hc]
  simp only [List.foldlM, Memory.readWordStep, Memory.getByte, e0, e1, e2, e3, h0, h1, h2, h3,
    Nat.zero_or, Nat.shiftLeft_eq, bind, Except.bind, pure, Except.pure, p8]
  clear hc e0 e1 e2 e3 h0 h1 h2 h3 hlen hsz halign
  have w1 : (b0 * 256 % 4294967296) % 256 = 0 := by omega
  rw [or_byte _ b1 w1 hb1]
  have w2 : ((b0 * 256 % 4294967296 + b1) * 256 % 4294967296) % 256 = 0 := by
    clear w1; omega
  rw [or_byte _ b2 w2 hb2]
  have w3 : (((b0 * 256 % 4294967296 + b1) * 256 % 4294967296 + b2) * 256 % 4294967296) % 256
      = 0 := by
    clear w1 w2; omega
  rw [or_byte _ b3 w3 hb3]
  exact congrArg Except.ok (readWord_arith b0 b1 b2 b3 hb1 hb2 hb3)

/-! ## The greater-than operation -/

/-- What case `0x2` of `doOp` does: `A = (B > A)` and then `C = (B > A)` with the
`A` just written; `B` and the other registers stay. -/
theorem doOp_gt (t : Transputer) :
    t.doOp 0x2 = Except.ok
      { t with A := Transputer.boolWord (decide (t.B > t.A)),
               C := Transputer.boolWord
                      (decide (t.B > Transputer.boolWord (decide (t.B > t.A)))) } := rfl

/-- Claim C21, evaluated on the code. The claim: after the greater-than operation
`A` and `C` hold the same value, 1 if the prior `B` is greater than the prior `A`
and 0 otherwise. From `A = 0, B = 1`: `A` becomes 1, and the second comparison
`B > A` of the source reads the `A` just written, so `C` becomes `(1 > 1) = 0`.
From `A = 1, B = 1`: `A` becomes 0 and `C` becomes `(1 > 0) = 1`. `B` is unchanged
in both. -/
theorem C21_gt_second_comparison :
    Transputer.doOp compareState 0x2 = Except.ok { compareState with A := 1, C := 0 } ∧
    Transputer.doOp { compareState with A := 1 } 0x2
      = Except.ok { compareState with A := 0, C := 1 } := by
  decide

/-! ## The encoder is total and bounded -/

theorem genPrefixSeq_append (v : Nat) :
    ∀ (c : Nat) (buf : List Nat),
      Assembler.genPrefixSeq c v buf = buf ++ Assembler.genPrefixSeq c v [] := by
  induction v using Nat.strong_induction_on with
  | _ v ih =>
    intro c buf
    rw [genPrefixSeq_unfold c v buf, genPrefixSeq_unfold c v []]
    by_cases h16 : 16 ≤ v
    · have hlt : v >>> 4 < v := by simp only [Nat.shiftRight_eq_div_pow]; omega
      rw [if_pos h16, if_pos h16, ih (v >>> 4) hlt Assembler.pfixCode buf, List.append_assoc]
    · rw [if_neg h16, if_neg h16, List.nil_append]

theorem hexDigits_pos (v : Nat) (hv : 0 < v) : hexDigits v = hexDigits (v / 16) + 1 := by
  unfold hexDigits
  rw [Nat.digits_def' (by norm_num) hv, List.length_cons]

theorem hexDigits_zero : hexDigits 0 = 0 := by
  unfold hexDigits
  rw [Nat.digits_zero, List.length_nil]

theorem genPrefixSeq_length (v : Nat) :
    ∀ c : Nat, (Assembler.genPrefixSeq c v []).length = max 1 (hexDigits v) := by
  induction v using Nat.strong_induction_on with
  | _ v ih =>
    intro c
    rw [genPrefixSeq_unfold]
    by_cases h16 : 16 ≤ v
    · have hlt : v >>> 4 < v := by simp only [Nat.shiftRight_eq_div_pow]; omega
      have hsh : v >>> 4 = v / 16 := by simp [Nat.shiftRight_eq_div_pow]
      have hih := ih (v >>> 4) hlt Assembler.pfixCode
      have h1 := hexDigits_pos v (by omega)
      have h2 := hexDigits_pos (v / 16) (by omega)
      rw [if_pos h16, List.length_append, hih, hsh, List.length_singleton]
      omega
    · rw [if_neg h16, List.nil_append, List.length_singleton]
      by_cases h0 : v = 0
      · subst h0; rw [hexDigits_zero]; rfl
      · have h1 := hexDigits_pos v (by omega)
        have h2 : v / 16 = 0 := by omega
        rw [h2, hexDigits_zero] at h1
        omega

/-- Claim C22: for every base opcode and every `u32` value `vImm`, the recursion of
`genPrefixSeq` is on a strictly smaller argument (`vImm >> 4 < vImm` whenever the
recursive call is made, so the function is total), and the call appends to the
buffer exactly `max(1, number of significant hexadecimal digits of vImm)` bytes,
which is at most 8. -/
theorem C22_genPrefixSeq_total_bounded (c v : Nat) (buf : List Nat) (hv : v < 4294967296) :
    (16 ≤ v → v >>> 4 < v) ∧
    (∃ bytes, Assembler.genPrefixSeq c v buf = buf ++ bytes ∧
      bytes.length = max 1 (hexDigits v)) ∧
    max 1 (hexDigits v) ≤ 8 := by
  refine ⟨?_, ⟨Assembler.genPrefixSeq c v [], genPrefixSeq_append v c buf,
    genPrefixSeq_length v c⟩, ?_⟩
  · intro h16
    simp only [Nat.shiftRight_eq_div_pow]
    omega
  · rw [← genPrefixSeq_length v c]
    have := genPrefixSeq_length_le 7 c v [] (lt_of_lt_of_le hv (by norm_num))
    simpa using this

/-- Claim C22 at `ldc` with the largest `u32`: eight bytes are appended to a buffer
that holds one byte. -/
theorem C22_genPrefixSeq_total_bounded_witness :
    ∃ bytes, Assembler.genPrefixSeq 0x6 4294967295 [0x20] = [0x20] ++ bytes ∧
      bytes.length = max 1 (hexDigits 4294967295) :=
  (C22_genPrefixSeq_total_bounded 0x6 4294967295 [0x20] (by decide)).2.1

theorem hexDigits_max : hexDigits 4294967295 = 8 := by
  unfold hexDigits
  norm_num

/-! ## A word written and read back -/

/-- What `setWord` does at an aligned address with four bytes in the vector: the
four bytes of the word are stored low byte first at `addr` to `addr + 3`. -/
theorem setWord_value (m : Memory) (addr w : Nat)
    (hlen : addr + 4 ≤ m.memData.length) (hsz : m.memData.length < 4294967296)
    (halign : addr % 4 = 0) :
    m.setWord addr w = Except.ok
      ⟨(((m.memData.set addr (w &&& 0xFF)).set (addr + 1) (w >>> 8 &&& 0xFF)).set
          (addr + 2) (w >>> 8 >>> 8 &&& 0xFF)).set (addr + 3) (w >>> 8 >>> 8 >>> 8 &&& 0xFF)⟩ := by
  have hc := checkWordAccess_ok m addr hlen hsz halign
  have e0 : (addr + 0) % 4294967296 = addr := by omega
  have e1 : (addr + 1) % 4294967296 = addr + 1 := by omega
  have e2 : (addr + 2) % 4294967296 = addr + 2 := by omega
  have e3 : (addr + 3) % 4294967296 = addr + 3 := by omega
  have l0 : addr < m.memData.length := by omega
  have l1 : addr + 1 < m.memData.length := by omega
  have l2 : addr + 2 < m.memData.length := by omega
  have l3 : addr + 3 < m.memData.length := by omega
  unfold Memory.setWord
  rw [hc]
  simp only [List.foldlM, Memory.setWordStep, Memory.store, e0, e1, e2, e3, l0, l1, l2, l3,
    List.length_set, if_true, bind, Except.bind, pure, Except.pure]

/-- The bytes outside `addr .. addr + 3` are the same before and after `setWord`. -/
theorem setWord_frame (m m2 : Memory) (addr w : Nat)
    (hlen : addr + 4 ≤ m.memData.length) (hsz : m.memData.length < 4294967296)
    (halign : addr % 4 = 0) (hset : m.setWord addr w = Except.ok m2) :
    m2.memData.length = m.memData.length ∧
    ∀ j, (j < addr ∨ addr + 3 < j) → m2.memData.get? j = m.memData.get? j := by
  rw [setWord_value m addr w hlen hsz halign] at hset
  cases hset
  constructor
  · simp
  · intro j hj
    have n0 : addr ≠ j := by omega
    have n1 : addr + 1 ≠ j := by omega
    have n2 : addr + 2 ≠ j := by omega
    have n3 : addr + 3 ≠ j := by omega
    simp [List.getElem?_set, n0, n1, n2, n3]

theorem and_255_lt (x : Nat) : x &&& 0xFF < 256 :=
  Nat.and_lt_two_pow x (by norm_num : (0xFF : Nat) < 2 ^ 8)

/-- What `readWord` returns after `setWord(addr, w)` at the same aligned address:
the second, third and fourth byte of `w` in the three high bytes and 0 in the low
byte, not `w`. -/
theorem readWord_setWord (m m2 : Memory) (addr w : Nat)
    (hlen : addr + 4 ≤ m.memData.length) (hsz : m.memData.length < 4294967296)
    (halign : addr % 4 = 0) (hset : m.setWord addr w = Except.ok m2) :
    m2.readWord addr = Except.ok
      (16777216 * (w >>> 8 &&& 0xFF) + 65536 * (w >>> 8 >>> 8 &&& 0xFF)
        + 256 * (w >>> 8 >>> 8 >>> 8 &&& 0xFF)) := by
  rw [setWord_value m addr w hlen hsz halign] at hset
  cases hset
  have l0 : addr < m.memData.length := by omega
  have l1 : addr + 1 < m.memData.length := by omega
  have l2 : addr + 2 < m.memData.length := by omega
  have l3 : addr + 3 < m.memData.length := by omega
  exact readWord_value _ addr (w &&& 0xFF) (w >>> 8 &&& 0xFF) (w >>> 8 >>> 8 &&& 0xFF)
    (w >>> 8 >>> 8 >>> 8 &&& 0xFF)
    (by simpa using hlen) (by simpa using hsz) halign
    (by simp [List.getElem?_set, l0])
    (by simp [List.getElem?_set, l1])
    (by simp [List.getElem?_set, l2])
    (by simp [List.getElem?_set, l3])
    (and_255_lt _) (and_255_lt _) (and_255_lt _)

/-- Claim C23, evaluated on the code. The claim: `setWord(addr, w)` followed by
`readWord(addr)` returns `w`. On a memory of eight bytes 9, at address 4: writing
`w = 1` stores the bytes 1, 0, 0, 0 (low byte first) and `readWord(4)` returns 0;
writing `w = 0x01020304 = 16909060` stores 4, 3, 2, 1 and `readWord(4)` returns
`0x03020100 = 50462976`. The bytes at 0 to 3 stay 9 in both writes. -/
theorem C23_word_round_trip_fails :
    Memory.setWord ⟨[9, 9, 9, 9, 9, 9, 9, 9]⟩ 4 1 = Except.ok ⟨[9, 9, 9, 9, 1, 0, 0, 0]⟩ ∧
    Memory.readWord ⟨[9, 9, 9, 9, 1, 0, 0, 0]⟩ 4 = Except.ok 0 ∧
    Memory.setWord ⟨[9, 9, 9, 9, 9, 9, 9, 9]⟩ 4 16909060
      = Except.ok ⟨[9, 9, 9, 9, 4, 3, 2, 1]⟩ ∧
    Memory.readWord ⟨[9, 9, 9, 9, 4, 3, 2, 1]⟩ 4 = Except.ok 50462976 := by
  decide

end Occam
